import Mathlib

/-!
# Verification of the `roaringsearch` n-gram index

Shallow embedding of the Go library `github.com/freeeve/roaringsearch`
(`index.go`, `ngram.go`, `storage.go`, the cached index file and the sort
column file) together with theorems checking the natural-language
specification against it.

Embedding conventions:

* Text is modelled as its sequence of Unicode code points (`List Nat`).
  Go strings are UTF-8 byte sequences; for the ASCII fast path the byte
  sequence and the code-point sequence coincide exactly when every code
  point is ≤ 127, which is the condition the fast path checks, so the
  byte-level loop is modelled on the code-point list guarded by the same
  all-ASCII test.
* Machine integers are modelled as `Nat` with an explicit `% 2 ^ 64`
  exactly where Go's `uint64` arithmetic can wrap (the FNV-1a hash and the
  shift-or packing loops).
* The compressed bitmap engine (`github.com/RoaringBitmap/roaring`) is an
  external dependency of the repository; per its contract it is a set of
  32-bit document IDs with union/intersection/contains/cardinality and an
  ascending iterator.  It is modelled as `Finset Nat`; `ToArray` and the
  iterator are the ascending sorted list of members.
* Go's `map[uint64]*roaring.Bitmap` is modelled as an association list.
  Go map iteration order is unspecified; every theorem below that touches
  an iteration of a map is insensitive to that order (it is stated through
  `mapLookup`, i.e. at the level of the key → document-set content).
-/

namespace RoaringSearch

/-- Text as its sequence of Unicode code points. -/
abbrev GoStr := List Nat

/-- The external roaring bitmap engine, modelled by its contract: a finite
set of document IDs. -/
abbrev Bitmap := Finset Nat

/-- Bitmap `ToArray` (and the ascending iterator): the sorted member list. -/
def bmToArray (bm : Bitmap) : List Nat := bm.sort (· ≤ ·)

/-- `roaring.FastAnd(bitmaps...)`: intersection of all the bitmaps
(empty input gives the empty bitmap). -/
def fastAnd : List Bitmap → Bitmap
  | [] => ∅
  | bm :: rest => rest.foldl (· ∩ ·) bm

/-! ## `ngram.go` -/

/-- ASCII upper-case letter test, `c >= 'A' && c <= 'Z'` in the source. -/
def asciiIsUpper (c : Nat) : Bool := 65 ≤ c && c ≤ 90

/-- ASCII lower-case letter or digit test,
`(c >= 'a' && c <= 'z') || (c >= '0' && c <= '9')` in the source. -/
def asciiIsLowerAlnum (c : Nat) : Bool := (97 ≤ c && c ≤ 122) || (48 ≤ c && c ≤ 57)

/-- Go `unicode.IsLetter(r) || unicode.IsDigit(r)` as used by
`NormalizeLowercaseAlphanumeric`.  On the ASCII range (`c ≤ 127`) Go's
tables classify exactly `A`–`Z`, `a`–`z`, `0`–`9` as letter-or-digit,
which is what this definition computes.  Non-ASCII code points are
classified by large Unicode tables in Go; the theorems below only apply
this predicate to ASCII code points (the fast-path parity claim is
restricted to all-ASCII inputs, and every other claim leaves the
normalizer abstract), so the value returned above 127 is never relied
upon. -/
def isLetterOrDigit (c : Nat) : Bool := asciiIsUpper c || asciiIsLowerAlnum c

/-- Go `unicode.ToLower` on the code points reaching it in the theorems
below (ASCII): adds 32 to `A`–`Z`, identity otherwise. -/
def toLowerRune (c : Nat) : Nat := if asciiIsUpper c then c + 32 else c

/-- `NormalizeLowercaseAlphanumeric`: keep letters and digits, lowercase
them (the source builds the kept-and-lowered string in one loop, which is
`filter` followed by `map`). -/
def NormalizeLowercaseAlphanumeric (s : GoStr) : GoStr :=
  (s.filter isLetterOrDigit).map toLowerRune

/-- `packRunes`: `key = key<<32 | uint64(r)` over the runes.  The `% 2^64`
makes Go's fixed-width `uint64` wrap explicit (it is a no-op for the ≤ 2
rune windows the source feeds to this function). -/
def packRunes (runes : List Nat) : Nat :=
  runes.foldl (fun key r => ((key <<< 32) ||| r) % 2 ^ 64) 0

/-- One FNV-1a step: xor a byte in, multiply by the 64-bit FNV prime with
`uint64` wraparound. -/
def fnvMix (h b : Nat) : Nat := ((h ^^^ b) * 1099511628211) % 2 ^ 64

/-- `hashRunes`: FNV-1a over four bytes of each rune in window order. -/
def hashRunes (runes : List Nat) : Nat :=
  runes.foldl
    (fun h r =>
      fnvMix (fnvMix (fnvMix (fnvMix h (r % 256)) ((r >>> 8) % 256)) ((r >>> 16) % 256))
        ((r >>> 24) % 256))
    14695981039346656037

/-- The 8-bit packing loop of `runeNgramKey` for gram sizes 3–8:
`key = key<<8 | uint64(r)`. -/
def packBytes8 (runes : List Nat) : Nat :=
  runes.foldl (fun key r => ((key <<< 8) ||| r) % 2 ^ 64) 0

/-- `runeNgramKey`: collision-free 32-bit packing for n ≤ 2, 8-bit packing
for ASCII windows of size 3–8 (the source checks each rune for `> 127`
inside the packing loop and discards the partial key on the first
non-ASCII rune, which is the same as testing the window first), FNV-1a
hash otherwise. -/
def runeNgramKey (runes : List Nat) : Nat :=
  if runes.length ≤ 2 then packRunes runes
  else if runes.length ≤ 8 then
    if runes.all (· ≤ 127) then packBytes8 runes else hashRunes runes
  else hashRunes runes

/-- The length-`gram` windows of a code point list, in order: the loop
`for i := 0; i <= len(runes)-gramSize; i++ { runes[i : i+gramSize] }`.
(The source only runs this for gram sizes ≥ 1, enforced by `NewIndex`.) -/
def ngramWindows (gram : Nat) : GoStr → List GoStr
  | [] => []
  | c :: rest =>
    if (c :: rest).length < gram then []
    else (c :: rest).take gram :: ngramWindows gram rest

/-- `containsKey`: linear scan of the dedup buffer. -/
def containsKey (keys : List Nat) (key : Nat) : Bool := keys.any (· == key)

/-- First-occurrence deduplication of a key list, as performed by the
per-document `seen` buffer and by the `seen` map of the query functions
(both keep the first occurrence of each key, in order). -/
def dedupFold (keys : List Nat) : List Nat :=
  keys.foldl (fun seen k => if containsKey seen k then seen else seen ++ [k]) []

/-- The byte-normalization loop of `normalizeAndKeyASCII`: fail on the
first byte > 127, lowercase `A`–`Z` by adding 32, keep `a`–`z` and
`0`–`9`, drop everything else. -/
def normalizeASCII : GoStr → Option GoStr
  | [] => some []
  | c :: rest =>
    if 127 < c then none
    else if asciiIsUpper c then (normalizeASCII rest).map ((c + 32) :: ·)
    else if asciiIsLowerAlnum c then (normalizeASCII rest).map (c :: ·)
    else normalizeASCII rest

/-- The key-packing loop of `normalizeAndKeyASCII`: 32-bit packing for
gram sizes ≤ 2 (matching `packRunes`), 8-bit packing otherwise. -/
def packASCIIKey (gram : Nat) (window : GoStr) : Nat :=
  if gram ≤ 2 then window.foldl (fun key c => ((key <<< 32) ||| c) % 2 ^ 64) 0
  else window.foldl (fun key c => ((key <<< 8) ||| c) % 2 ^ 64) 0

/-- `normalizeAndKeyASCII`: `none` when the text has a non-ASCII byte
(fall back to the rune path), otherwise the deduplicated window keys of
the normalized byte buffer (empty when the buffer is shorter than the
gram size). -/
def normalizeAndKeyASCII (s : GoStr) (gramSize : Nat) : Option (List Nat) :=
  match normalizeASCII s with
  | none => none
  | some buf =>
    if buf.length < gramSize then some []
    else some (dedupFold ((ngramWindows gramSize buf).map (packASCIIKey gramSize)))

/-! ## `index.go`: the in-memory index -/

/-- The in-memory index: gram size, normalizer, key → bitmap map
(association list), ASCII fast path flag. -/
structure Index where
  gramSize : Nat
  normalizer : GoStr → GoStr
  bitmaps : List (Nat × Bitmap)
  useASCIFastPath : Bool

/-- Go map read `m[k]`. -/
def mapLookup {β : Type} (m : List (Nat × β)) (k : Nat) : Option β :=
  match m with
  | [] => none
  | (k', bm) :: rest => if k' = k then some bm else mapLookup rest k

/-- `getOrCreateBitmap(key).Add(docID)`: insert the doc ID into the
bitmap at `key`, creating the bitmap if absent. -/
def mapAddDoc (m : List (Nat × Bitmap)) (key docID : Nat) : List (Nat × Bitmap) :=
  match m with
  | [] => [(key, {docID})]
  | (k, bm) :: rest =>
    if k = key then (k, insert docID bm) :: rest else (k, bm) :: mapAddDoc rest key docID

/-- Merge step `if bm, ok := dst[key]; ok { bm.Or(src) } else { dst[key] = src }`. -/
def mapInsertOr (m : List (Nat × Bitmap)) (key : Nat) (bm' : Bitmap) : List (Nat × Bitmap) :=
  match m with
  | [] => [(key, bm')]
  | (k, bm) :: rest =>
    if k = key then (k, bm ∪ bm') :: rest else (k, bm) :: mapInsertOr rest key bm'

/-- Go map write `m[k] = bm` (replace or append). -/
def mapSet {β : Type} (m : List (Nat × β)) (key : Nat) (bm' : β) : List (Nat × β) :=
  match m with
  | [] => [(key, bm')]
  | (k, bm) :: rest =>
    if k = key then (k, bm') :: rest else (k, bm) :: mapSet rest key bm'

/-- `NewIndex`: clamp the gram size (≤ 0 → 3, > 8 → 8), default
normalizer, fast path enabled. -/
def NewIndex (gramSize : Int) : Index :=
  let g : Int := if gramSize ≤ 0 then 3 else gramSize
  let g : Int := if g > 8 then 8 else g
  { gramSize := g.toNat
    normalizer := NormalizeLowercaseAlphanumeric
    bitmaps := []
    useASCIFastPath := true }

/-- `WithNormalizer`: set a custom normalizer and disable the fast path. -/
def withNormalizer (n : GoStr → GoStr) (idx : Index) : Index :=
  { idx with normalizer := n, useASCIFastPath := false }

/-- The rune-path posting loop of `addRuneBasedNgrams` /
`processDocUnicode`: walk the window keys, skip keys already in `seen`,
otherwise append to `seen` and post the doc ID. -/
def postRuneKeys (gram docID : Nat) (runes : GoStr) (m : List (Nat × Bitmap)) :
    List (Nat × Bitmap) :=
  (((ngramWindows gram runes).map runeNgramKey).foldl
    (fun acc key =>
      if containsKey acc.1 key then acc else (acc.1 ++ [key], mapAddDoc acc.2 key docID))
    ([], m)).2

/-- `addRuneBasedNgrams`: normalize, return unchanged when shorter than
the gram size, otherwise post the deduplicated window keys. -/
def Index.addRuneBasedNgrams (idx : Index) (docID : Nat) (text : GoStr) : Index :=
  let runes := idx.normalizer text
  if runes.length < idx.gramSize then idx
  else { idx with bitmaps := postRuneKeys idx.gramSize docID runes idx.bitmaps }

/-- `Index.Add`: fast ASCII path when enabled and the text is pure ASCII,
rune-based path otherwise. -/
def Index.Add (idx : Index) (docID : Nat) (text : GoStr) : Index :=
  if idx.useASCIFastPath then
    match normalizeAndKeyASCII text idx.gramSize with
    | some keys =>
      { idx with bitmaps := keys.foldl (fun m key => mapAddDoc m key docID) idx.bitmaps }
    | none => idx.addRuneBasedNgrams docID text
  else idx.addRuneBasedNgrams docID text

/-! ### The parallel build pipeline (`addBatchN` and friends)

The pipeline is deterministic up to Go map iteration order and thread
scheduling: each worker fills a private map from its own chunk, the maps
are merged pairwise, and the final map is folded into the shared index.
The embedding runs the same chunking, per-document processing and merge
structure sequentially; the theorems compare states through `mapLookup`,
which is insensitive to the map orders. -/

/-- A batched document. -/
structure GoDoc where
  id : Nat
  text : GoStr
deriving DecidableEq, Repr

/-- `processDocUnicode`: the rune path of a worker, identical to
`addRuneBasedNgrams` but into the worker-local map. -/
def processDocUnicode (gram : Nat) (normalizer : GoStr → GoStr)
    (localMap : List (Nat × Bitmap)) (doc : GoDoc) : List (Nat × Bitmap) :=
  let runes := normalizer doc.text
  if runes.length < gram then localMap
  else postRuneKeys gram doc.id runes localMap

/-- One document of `processChunk`: fast ASCII path
(`processDocASCII` / `normalizeAndKeyASCIIPooled`, which computes the
same keys as `normalizeAndKeyASCII`) with rune fallback. -/
def processChunkDoc (idx : Index) (localMap : List (Nat × Bitmap)) (doc : GoDoc) :
    List (Nat × Bitmap) :=
  if idx.useASCIFastPath then
    match normalizeAndKeyASCII doc.text idx.gramSize with
    | some keys => keys.foldl (fun m key => mapAddDoc m key doc.id) localMap
    | none => processDocUnicode idx.gramSize idx.normalizer localMap doc
  else processDocUnicode idx.gramSize idx.normalizer localMap doc

/-- `processChunk`: worker `workerID` processes
`docs[workerID*chunkSize : workerID*chunkSize+chunkSize]` into a fresh
local map. -/
def processChunk (idx : Index) (docs : List GoDoc) (workerID chunkSize : Nat) :
    List (Nat × Bitmap) :=
  ((docs.drop (workerID * chunkSize)).take chunkSize).foldl (processChunkDoc idx) []

/-- `clampWorkers`: `workers = 0` (Go: `workers <= 0`) defaults to the
CPU count, clamp to the document count, single worker under 100
documents. -/
def clampWorkers (numCPU workers docCount : Nat) : Nat :=
  let w := if workers = 0 then numCPU else workers
  let w := if w > docCount then docCount else w
  if docCount < 100 ∧ w > 1 then 1 else w

/-- `mergeTwoLocals`: union `src` into `dst` entry by entry. -/
def mergeTwoLocals (dst src : List (Nat × Bitmap)) : List (Nat × Bitmap) :=
  src.foldl (fun d e => mapInsertOr d e.1 e.2) dst

/-- One round of the pairwise reduction: with `half = (len+1)/2`, merge
`locals[half+i]` into `locals[i]` for `i < len/2` and keep
`locals[len/2 .. half)` (the odd middle element), then truncate to
`half` — written as `zipWith` over the two halves plus the middle. -/
def mergeStep (locals : List (List (Nat × Bitmap))) : List (List (Nat × Bitmap)) :=
  let half := (locals.length + 1) / 2
  List.zipWith mergeTwoLocals (locals.take (locals.length / 2)) (locals.drop half) ++
    (locals.take half).drop (locals.length / 2)

/-- The pairwise-reduction loop of `mergeLocalIndexes`: halve the
population each round until one local map remains. -/
def mergeRounds (locals : List (List (Nat × Bitmap))) : List (Nat × Bitmap) :=
  if _h : locals.length ≤ 1 then locals.headD []
  else mergeRounds (mergeStep locals)
termination_by locals.length
decreasing_by
  simp only [mergeStep, List.length_append, List.length_zipWith, List.length_take,
    List.length_drop]
  omega

/-- The final fold of `mergeLocalIndexes` into the shared index: for each
key of the merged local map, OR the local bitmap into the existing one or
move it in if absent.  (The source commits this fold in chunks of 1000
keys, releasing the write lock between chunks; the chunking affects only
locking, not the final state.) -/
def mergeIntoIndex (m0 localMap : List (Nat × Bitmap)) : List (Nat × Bitmap) :=
  localMap.foldl (fun acc e => mapInsertOr acc e.1 e.2) m0

/-- `addBatchN` with an explicit CPU count (`runtime.NumCPU()` is
environment-dependent and passed as the `numCPU` parameter). -/
def Index.addBatchN (idx : Index) (docs : List GoDoc) (workers numCPU : Nat) : Index :=
  if docs.isEmpty then idx
  else
    let w := clampWorkers numCPU workers docs.length
    let chunkSize := (docs.length + w - 1) / w
    let locals := (List.range w).map fun i => processChunk idx docs i chunkSize
    { idx with bitmaps := mergeIntoIndex idx.bitmaps (mergeRounds locals) }

/-- `IndexBatch.Flush`: no-op on an empty batch, otherwise
`addBatch = addBatchN(docs, 0)`. -/
def Index.Flush (idx : Index) (docs : List GoDoc) (numCPU : Nat) : Index :=
  if docs.isEmpty then idx else idx.addBatchN docs 0 numCPU

/-- Serially `Add`-ing a document list. -/
def Index.addAll (idx : Index) (docs : List GoDoc) : Index :=
  docs.foldl (fun i d => i.Add d.id d.text) idx

/-- The distinct query keys, in first-occurrence order (the `seen` map of
the query functions). -/
def queryDistinctKeys (gram : Nat) (runes : GoStr) : List Nat :=
  dedupFold ((ngramWindows gram runes).map runeNgramKey)

/-- The bitmap-collecting loop of the query functions: `none` as soon as
a key is missing from the index (the source does an early `return nil`),
otherwise the bitmaps in key order. -/
def collectBitmaps (m : List (Nat × Bitmap)) : List Nat → Option (List Bitmap)
  | [] => some []
  | k :: rest =>
    match mapLookup m k with
    | none => none
    | some bm => (collectBitmaps m rest).map (bm :: ·)

/-- The cardinality-ascending sort of the collected bitmaps.  The source
delegates to Go's `sort.Slice` with the comparator
`bitmaps[i].GetCardinality() < bitmaps[j].GetCardinality()`; `sort.Slice`
is documented as not stable, so the order among equal cardinalities is an
implementation detail of the Go standard library.  It is modelled here as
an insertion sort by the same comparator; every theorem below about a
query result is invariant under the tie order (intersections do not
depend on the order of the operands). -/
def sortBitmapsByCardinality (l : List Bitmap) : List Bitmap :=
  l.insertionSort (fun a b => a.card < b.card)

/-- `Index.Search` (AND query). -/
def Index.Search (idx : Index) (query : GoStr) : List Nat :=
  let runes := idx.normalizer query
  if runes.length < idx.gramSize then []
  else
    match collectBitmaps idx.bitmaps (queryDistinctKeys idx.gramSize runes) with
    | none => []
    | some bitmaps =>
      match bitmaps with
      | [] => []
      | [bm] => bmToArray bm
      | _ =>
        let sorted := sortBitmapsByCardinality bitmaps
        let result := fastAnd sorted
        if result = ∅ then [] else bmToArray result

/-- The early-terminating iteration of `SearchWithLimit`: walk the
smallest bitmap's doc IDs in ascending order, keep those contained in
every other bitmap, stop once `limit` hits have accumulated. -/
def searchIterate (docs : List Nat) (rest : List Bitmap) (limit : Nat) : List Nat :=
  match docs with
  | [] => []
  | d :: ds =>
    if limit = 0 then []
    else if rest.all (fun bm => decide (d ∈ bm)) then d :: searchIterate ds rest (limit - 1)
    else searchIterate ds rest limit

/-- `Index.SearchWithLimit`.  (The source checks `len(bitmaps) == 0`
before sorting; the sorted list is empty exactly when the collected list
is, so the emptiness check is placed after the sort here.) -/
def Index.SearchWithLimit (idx : Index) (query : GoStr) (limit : Int) : List Nat :=
  if limit ≤ 0 then []
  else
    let runes := idx.normalizer query
    if runes.length < idx.gramSize then []
    else
      match collectBitmaps idx.bitmaps (queryDistinctKeys idx.gramSize runes) with
      | none => []
      | some bitmaps =>
        match sortBitmapsByCardinality bitmaps with
        | [] => []
        | smallest :: rest =>
          let results := searchIterate (bmToArray smallest) rest limit.toNat
          if results = [] then [] else results

/-! ## `storage.go`: the persistence codec

Byte streams are `List Nat` with every element < 256.  Go's
`io.ReadFull` errors are collapsed into the single `truncated` kind (the
source wraps them in distinct strings; the claims only distinguish the
header/bound error values `ErrInvalidMagic`, `ErrInvalidVersion`,
`ErrInvalidGramSize`, `ErrInvalidCount`, `ErrInvalidSize`). -/

/-- Byte streams. -/
abbrev Bytes := List Nat

/-- `binary.LittleEndian.PutUint16` (including Go's truncation of wider
values to 16 bits). -/
def u16le (v : Nat) : Bytes := [v % 256, v / 2 ^ 8 % 256]

/-- `binary.LittleEndian.PutUint32`. -/
def u32le (v : Nat) : Bytes := [v % 256, v / 2 ^ 8 % 256, v / 2 ^ 16 % 256, v / 2 ^ 24 % 256]

/-- `binary.LittleEndian.PutUint64`. -/
def u64le (v : Nat) : Bytes :=
  [v % 256, v / 2 ^ 8 % 256, v / 2 ^ 16 % 256, v / 2 ^ 24 % 256,
   v / 2 ^ 32 % 256, v / 2 ^ 40 % 256, v / 2 ^ 48 % 256, v / 2 ^ 56 % 256]

/-- `binary.LittleEndian.Uint16`. -/
def decodeU16 (b : Bytes) : Nat := b.getD 0 0 + 2 ^ 8 * b.getD 1 0

/-- `binary.LittleEndian.Uint32`. -/
def decodeU32 (b : Bytes) : Nat :=
  b.getD 0 0 + 2 ^ 8 * b.getD 1 0 + 2 ^ 16 * b.getD 2 0 + 2 ^ 24 * b.getD 3 0

/-- `binary.LittleEndian.Uint64`. -/
def decodeU64 (b : Bytes) : Nat :=
  b.getD 0 0 + 2 ^ 8 * b.getD 1 0 + 2 ^ 16 * b.getD 2 0 + 2 ^ 24 * b.getD 3 0 +
    2 ^ 32 * b.getD 4 0 + 2 ^ 40 * b.getD 5 0 + 2 ^ 48 * b.getD 6 0 + 2 ^ 56 * b.getD 7 0

/-- The serialized form of a bitmap (`bm.ToBytes()`).  The roaring wire
format is produced by the external bitmap engine; it is modelled as a
concrete injective codec satisfying the engine's contract — the
little-endian 32-bit encodings of the members in ascending order. -/
def serializeBitmap (bm : Bitmap) : Bytes := ((bmToArray bm).map u32le).flatten

/-- Member-list parser for the modelled bitmap codec. -/
def parseDocList : Bytes → Option (List Nat)
  | [] => some []
  | b0 :: b1 :: b2 :: b3 :: rest =>
    (parseDocList rest).map ((b0 + 2 ^ 8 * b1 + 2 ^ 16 * b2 + 2 ^ 24 * b3) :: ·)
  | _ => none

/-- `bm.ReadFrom(bytes)` of the modelled bitmap codec. -/
def deserializeBitmap (payload : Bytes) : Option Bitmap := (parseDocList payload).map List.toFinset

/-- The load-error taxonomy of `storage.go`. -/
inductive LoadErr where
  | invalidMagic
  | invalidVersion
  | invalidGramSize
  | invalidCount
  | invalidSize
  | truncated
  | deserializationFailed
deriving DecidableEq, Repr

/-- `io.ReadFull` of `n` bytes: the bytes read and the remaining stream,
or a truncation error. -/
def readN (n : Nat) (b : Bytes) : Except LoadErr (Bytes × Bytes) :=
  if b.length < n then .error .truncated else .ok (b.take n, b.drop n)

/-- The magic bytes, ASCII `FTSR`. -/
def magicHeader : Bytes := [70, 84, 83, 82]

/-- `maxBitmapSize = 100 << 20`. -/
def maxBitmapSize : Nat := 100 * 2 ^ 20

/-- `maxNgramCount = 100000000`. -/
def maxNgramCount : Nat := 100000000

/-- `Index.WriteTo`: magic, version 2, gram size, entry count, then for
each entry the key, the serialized bitmap length and the payload.  The
source iterates the Go map in unspecified order; the association-list
order stands in for it (the round-trip theorem only compares key sets and
per-key contents, which are order-insensitive). -/
def Index.WriteTo (idx : Index) : Bytes :=
  magicHeader ++ u16le 2 ++ u16le idx.gramSize ++ u32le idx.bitmaps.length ++
    (idx.bitmaps.map fun e =>
      u64le e.1 ++ u32le (serializeBitmap e.2).length ++ serializeBitmap e.2).flatten

/-- `readHeader`: validate magic, version and gram-size bounds. -/
def readHeader (b : Bytes) : Except LoadErr (Nat × Bytes) :=
  match readN 8 b with
  | .error e => .error e
  | .ok (h, rest) =>
    if h.take 4 ≠ magicHeader then .error .invalidMagic
    else if decodeU16 (h.drop 4) ≠ 2 then .error .invalidVersion
    else
      let g := decodeU16 (h.drop 6)
      if g < 1 ∨ 8 < g then .error .invalidGramSize
      else .ok (g, rest)

/-- `readNgramEntry`: key, size (bounded by `maxBitmapSize` before the
payload is read), payload, bitmap reconstruction. -/
def readNgramEntry (b : Bytes) : Except LoadErr ((Nat × Bitmap) × Bytes) :=
  match readN 8 b with
  | .error e => .error e
  | .ok (kb, b1) =>
    let key := decodeU64 kb
    match readN 4 b1 with
    | .error e => .error e
    | .ok (sb, b2) =>
      let bmSize := decodeU32 sb
      if maxBitmapSize < bmSize then .error .invalidSize
      else
        match readN bmSize b2 with
        | .error e => .error e
        | .ok (payload, b3) =>
          match deserializeBitmap payload with
          | none => .error .deserializationFailed
          | some bm => .ok ((key, bm), b3)

/-- The entry-reading loop of `ReadFrom`. -/
def readEntries (count : Nat) (b : Bytes) (acc : List (Nat × Bitmap)) :
    Except LoadErr (List (Nat × Bitmap) × Bytes) :=
  match count with
  | 0 => .ok (acc, b)
  | n + 1 =>
    match readNgramEntry b with
    | .error e => .error e
    | .ok (e, b') => readEntries n b' (mapSet acc e.1 e.2)

/-- `Index.ReadFrom`: validate the header, bound the entry count, read
the entries.  The gram size is taken from the file; the normalizer (and
fast-path flag) of the receiver are preserved.  (The Go method mutates
the receiver before a failing entry; the functional embedding discards
the partial state, and no claim observes an index whose load failed.) -/
def Index.ReadFrom (idx : Index) (b : Bytes) : Except LoadErr Index :=
  match readHeader b with
  | .error e => .error e
  | .ok (g, b1) =>
    match readN 4 b1 with
    | .error e => .error e
    | .ok (cb, b2) =>
      let count := decodeU32 cb
      if maxNgramCount < count then .error .invalidCount
      else
        match readEntries count b2 [] with
        | .error e => .error e
        | .ok (entries, _) => .ok { idx with gramSize := g, bitmaps := entries }

/-- `LoadFromFile`: a fresh `NewIndex(3)` — default normalizer, fast path
enabled — filled by `ReadFrom`. -/
def LoadFromFile (b : Bytes) : Except LoadErr Index := (NewIndex 3).ReadFrom b

/-! ## The cached index (`loadIndex` of the cache file)

The cached-index open scans the persisted file recording, for each key,
the byte offset and serialized size of its bitmap, skipping the payloads
by `Seek`.  A `Seek` beyond the end of the file succeeds in Go; only a
subsequent `io.ReadFull` fails, which the position-based reader below
reproduces. -/

/-- A directory entry of the cached index: byte offset and serialized
size of one bitmap. -/
structure NgramLoc where
  offset : Nat
  size : Nat
deriving DecidableEq, Repr

/-- The metadata built by `loadIndex`: gram size and the key → location
directory. -/
structure CachedIndexMeta where
  gramSize : Nat
  ngramIndex : List (Nat × NgramLoc)
deriving DecidableEq, Repr

/-- The entry-scanning loop of `loadIndex`: read key and size at the
current offset, record the location, seek over the payload. -/
def cachedReadEntries (file : Bytes) :
    Nat → Nat → List (Nat × NgramLoc) → Except LoadErr (List (Nat × NgramLoc))
  | 0, _, acc => .ok acc
  | n + 1, pos, acc =>
    if file.length < pos + 8 then .error .truncated
    else
      let key := decodeU64 ((file.drop pos).take 8)
      if file.length < pos + 12 then .error .truncated
      else
        let bmSize := decodeU32 ((file.drop (pos + 8)).take 4)
        cachedReadEntries file n (pos + 12 + bmSize) (mapSet acc key ⟨pos + 12, bmSize⟩)

/-- `loadIndex` of the cached index: checks magic and version, then takes
the gram size and the entry count from the header without any bounds
check, and scans the entries.  (Unlike `Index.ReadFrom`, there is no
gram-size, entry-count or bitmap-size validation in this loader.) -/
def loadIndex (file : Bytes) : Except LoadErr CachedIndexMeta :=
  if file.length < 8 then .error .truncated
  else if file.take 4 ≠ magicHeader then .error .invalidMagic
  else if decodeU16 ((file.drop 4).take 2) ≠ 2 then .error .invalidVersion
  else
    let g := decodeU16 ((file.drop 6).take 2)
    if file.length < 12 then .error .truncated
    else
      let count := decodeU32 ((file.drop 8).take 4)
      (cachedReadEntries file count 12 []).map fun m => ⟨g, m⟩

/-! ## The byte-budget cache admission policy

Modelled from the spec: the byte-bounded cached index
(`OpenCachedIndex(path, WithMemoryBudget(B))`, its `MemoryUsage`
accounting and its eviction loop) is not among the source files of the
repository — only its tests and the README reference `WithMemoryBudget`;
the cache source present is an earlier count-bounded-only revision.  The
admission policy is therefore modelled from §4.5 of the specification:
on loading a bitmap of estimated size `s`, while `current_bytes + s >
B` and the cache is non-empty, evict the least recently used tail entry
and subtract its recorded size; then admit the new entry and add `s`.
An oversized bitmap (`s > B`) is admitted as the sole occupant after all
others have been evicted. -/

/-- Byte-budget cache state: budget, LRU list (head = most recently
used) of (key, recorded size) entries, and the `current_bytes` counter. -/
structure ByteCache where
  budget : Nat
  entries : List (Nat × Nat)
  currentBytes : Nat
deriving DecidableEq, Repr

/-- The eviction loop: while admitting `s` more bytes would exceed the
budget and the cache is non-empty, drop the tail entry and subtract its
recorded size from the byte counter. -/
def evictLoop (budget s : Nat) (entries : List (Nat × Nat)) (cur : Nat) :
    List (Nat × Nat) × Nat :=
  if cur + s ≤ budget then (entries, cur)
  else
    match entries with
    | [] => ([], cur)
    | e :: es => evictLoop budget s ((e :: es).dropLast) (cur - ((e :: es).getLastD (0, 0)).2)
termination_by entries.length
decreasing_by simp [List.length_dropLast]

/-- Move a cache hit to the head of the LRU list. -/
def moveToFront (entries : List (Nat × Nat)) (k : Nat) : List (Nat × Nat) :=
  match entries.find? (fun e => e.1 == k) with
  | none => entries
  | some e => e :: entries.erase e

/-- One public call on the byte-budget cache: a lookup that hits, a
lookup that loads a bitmap of size `s` from disk, or `ClearCache`. -/
inductive CacheOp where
  | hit (key : Nat)
  | load (key size : Nat)
  | clear

/-- The state transition of one public call.  A `load` whose key is
already cached behaves as a hit (the lookup consults the cache first). -/
def ByteCache.step (st : ByteCache) : CacheOp → ByteCache
  | .hit k => { st with entries := moveToFront st.entries k }
  | .load k s =>
    if (st.entries.map Prod.fst).contains k then
      { st with entries := moveToFront st.entries k }
    else
      let (ents, cur) := evictLoop st.budget s st.entries st.currentBytes
      { st with entries := (k, s) :: ents, currentBytes := cur + s }
  | .clear => { st with entries := [], currentBytes := 0 }

/-- A freshly opened byte-budget cache. -/
def ByteCache.init (budget : Nat) : ByteCache := ⟨budget, [], 0⟩

/-- The cache state after a sequence of public calls. -/
def runCache (budget : Nat) (ops : List CacheOp) : ByteCache :=
  ops.foldl ByteCache.step (ByteCache.init budget)

/-! ## The sort column (`SortColumn[T]`, its heap partial sort, and
`container/heap`)

`SortColumn` is generic over `cmp.Ordered`; the embedding is generic over
a `LinearOrder`.  Go's zero value of `T` (read for doc IDs beyond the
backing array) is `default` of an `Inhabited` instance.

The heap functions are Go's `container/heap` package operating through
`Less`/`Swap` on the items slice; they are embedded as pure functions on
lists, parameterized by the boolean comparator `less`. -/

/-- One entry of a sort result: document ID and its column value. -/
structure SortedResult (T : Type) where
  docID : Nat
  value : T
deriving DecidableEq, Repr

instance {T : Type} [Inhabited T] : Inhabited (SortedResult T) := ⟨⟨0, default⟩⟩

/-- Reading the column: `values[docID]` when in bounds, the zero value of
`T` otherwise. -/
def getValue {T : Type} [Inhabited T] (values : List T) (docID : Nat) : T :=
  if docID < values.length then values.getD docID default else default

/-- `Swap(i, j)` on the items slice. -/
def hswap {β : Type} [Inhabited β] (l : List β) (i j : Nat) : List β :=
  (l.set i (l.getD j default)).set j (l.getD i default)

/-- The loop body of `container/heap`'s `down(h, i0, n)`, with an
explicit fuel argument bounding the remaining iterations (the loop index
strictly increases and stays below `n`, so `n - i` iterations always
suffice; the fuel-zero base case is unreachable while `i < n`). -/
def downAux {β : Type} [Inhabited β] (less : β → β → Bool) :
    Nat → List β → Nat → Nat → List β × Nat
  | 0, l, i, _ => (l, i)
  | fuel + 1, l, i, n =>
    let j1 := 2 * i + 1
    if j1 < n then
      if j1 + 1 < n ∧ less (l.getD (j1 + 1) default) (l.getD j1 default) then
        if less (l.getD (j1 + 1) default) (l.getD i default) then
          downAux less fuel (hswap l i (j1 + 1)) (j1 + 1) n
        else (l, i)
      else
        if less (l.getD j1 default) (l.getD i default) then
          downAux less fuel (hswap l i j1) j1 n
        else (l, i)
    else (l, i)

/-- `container/heap`'s `down(h, i0, n)`: sift the element at `i` down
while a child compares `less` than it, choosing the `less`-smaller child.
Returns the list and the final index (Go returns `i > i0`). -/
def down {β : Type} [Inhabited β] (less : β → β → Bool) (l : List β) (i n : Nat) :
    List β × Nat :=
  downAux less (n - i) l i n

/-- The loop body of `container/heap`'s `up(h, j)` with explicit fuel
(the index strictly decreases, so `j` iterations suffice; in Go
`(0-1)/2 = 0` by truncation toward zero, so `up` at the root is a no-op,
as here with `Nat` subtraction). -/
def upAux {β : Type} [Inhabited β] (less : β → β → Bool) :
    Nat → List β → Nat → List β
  | 0, l, _ => l
  | fuel + 1, l, j =>
    let i := (j - 1) / 2
    if i = j ∨ ¬ less (l.getD j default) (l.getD i default) then l
    else upAux less fuel (hswap l i j) i

/-- `container/heap`'s `up(h, j)`. -/
def up {β : Type} [Inhabited β] (less : β → β → Bool) (l : List β) (j : Nat) :
    List β :=
  upAux less j l j

/-- The loop of `heap.Init`: `down` at `k-1, k-2, …, 0`. -/
def heapInitAux {β : Type} [Inhabited β] (less : β → β → Bool) (n : Nat) :
    Nat → List β → List β
  | 0, l => l
  | k + 1, l => heapInitAux less n k (down less l k n).1

/-- `heap.Init(h)`: `down` at `n/2 - 1, …, 0`. -/
def heapInit {β : Type} [Inhabited β] (less : β → β → Bool) (l : List β) (n : Nat) :
    List β :=
  heapInitAux less n (n / 2) l

/-- `heap.Fix(h, i)`: `down`, then `up` when the element did not move
down. -/
def heapFix {β : Type} [Inhabited β] (less : β → β → Bool) (l : List β) (i : Nat) :
    List β :=
  let r := down less l i l.length
  if i < r.2 then r.1 else up less r.1 i

/-- `heap.Pop(h)`: swap the root with the last element, sift the new root
down over the shortened range, then remove and return the last element
(`resultHeap.Pop`). -/
def heapPop {β : Type} [Inhabited β] (less : β → β → Bool) (l : List β) : β × List β :=
  let n := l.length - 1
  let l1 := hswap l 0 n
  let l2 := (down less l1 0 n).1
  (l2.getD n default, l2.take n)

/-- The pop loop of `heapSort`: `h.Len()` successive `heap.Pop`s (the
source fills `results[len-1], …, results[0]`; the reversal is applied by
the caller). -/
def popLoop {β : Type} [Inhabited β] (less : β → β → Bool) : Nat → List β → List β
  | 0, _ => []
  | k + 1, l =>
    let r := heapPop less l
    r.1 :: popLoop less k r.2

/-- The `Less` method of `resultHeap`: a max-heap by value when sorting
ascending, a min-heap when sorting descending. -/
def heapLess {T : Type} [LinearOrder T] (asc : Bool) (a b : SortedResult T) : Bool :=
  if asc then decide (b.value < a.value) else decide (a.value < b.value)

/-- One item of the `heapSort` selection loop: append while the heap is
filling (heapify on the item that fills it), otherwise compare to the
top and replace-and-fix when strictly better. -/
def heapSortStep {T : Type} [LinearOrder T] [Inhabited T] (asc : Bool) (limit : Nat)
    (values : List T) (items : List (SortedResult T)) (docID : Nat) :
    List (SortedResult T) :=
  let value := getValue values docID
  if items.length < limit then
    let items' := items ++ [⟨docID, value⟩]
    if items'.length = limit then heapInit (heapLess asc) items' items'.length else items'
  else
    let top := items.getD 0 default
    let better := if asc then decide (value < top.value) else decide (top.value < value)
    if better then heapFix (heapLess asc) (items.set 0 ⟨docID, value⟩) 0 else items

/-- `SortColumn.heapSort`: bounded-heap selection of the best `limit`
items, then pop everything, writing the pops into the output back to
front. -/
def heapSort {T : Type} [LinearOrder T] [Inhabited T] (values : List T)
    (docIDs : List Nat) (asc : Bool) (limit : Nat) : List (SortedResult T) :=
  let items := docIDs.foldl (heapSortStep asc limit values) []
  let items :=
    if items.length < limit ∧ 0 < items.length then heapInit (heapLess asc) items items.length
    else items
  (popLoop (heapLess asc) items.length items).reverse

/-- The full-sort branch of `sortLocked` without its truncation:
materialize `(docID, value)` pairs and sort by value in the requested
direction.  The source calls `slices.SortFunc` (pdqsort), which runs a
plain insertion sort — stable — on slices of at most 12 elements and is
documented as unstable above that; it is modelled as the stable insertion
sort by the same comparator.  The theorems below compare full-sort
results at the value level, where the tie order among equal values is
irrelevant, and the counterexample uses 12 elements, where
`slices.SortFunc` is exactly insertion sort. -/
def fullSortResults {T : Type} [LinearOrder T] [Inhabited T] (values : List T)
    (docIDs : List Nat) (asc : Bool) : List (SortedResult T) :=
  let results := docIDs.map fun d => (⟨d, getValue values d⟩ : SortedResult T)
  if asc then results.insertionSort (fun a b => a.value ≤ b.value)
  else results.insertionSort (fun a b => b.value ≤ a.value)

/-- `SortColumn.sortLocked`: heap partial sort when
`limit > 0 && limit < len(docIDs)/4`, otherwise a full sort truncated to
`limit` when `limit > 0 && limit < len(results)`. -/
def sortLocked {T : Type} [LinearOrder T] [Inhabited T] (values : List T)
    (docIDs : List Nat) (asc : Bool) (limit : Int) : List (SortedResult T) :=
  if docIDs.isEmpty then []
  else if 0 < limit ∧ limit < (docIDs.length : Int) / 4 then
    heapSort values docIDs asc limit.toNat
  else
    let results := fullSortResults values docIDs asc
    if 0 < limit ∧ limit < (results.length : Int) then results.take limit.toNat else results

/-- The three-document example index of the repository's own tests:
`Add(1, "Hello World")`, `Add(2, "Hello there")`, `Add(3, "World peace")`
(texts as code points). -/
def exampleIdx3 : Index :=
  (((NewIndex 3).Add 1 [72, 101, 108, 108, 111, 32, 87, 111, 114, 108, 100]).Add 2
      [72, 101, 108, 108, 111, 32, 116, 104, 101, 114, 101]).Add 3
    [87, 111, 114, 108, 100, 32, 112, 101, 97, 99, 101]

/-- The rune-path key list of one document: empty when the normalized
text is shorter than the gram size, otherwise the window keys. -/
def docRuneKeys (gram : Nat) (normalizer : GoStr → GoStr) (doc : GoDoc) : List Nat :=
  if (normalizer doc.text).length < gram then []
  else (ngramWindows gram (normalizer doc.text)).map runeNgramKey

/-- The n-gram keys one document posts (with multiplicity; posting is
idempotent per key): ASCII fast-path keys when that path applies, rune
window keys otherwise. -/
def docKeyList (idx : Index) (doc : GoDoc) : List Nat :=
  if idx.useASCIFastPath then
    match normalizeAndKeyASCII doc.text idx.gramSize with
    | some keys => keys
    | none => docRuneKeys idx.gramSize idx.normalizer doc
  else docRuneKeys idx.gramSize idx.normalizer doc

/-- Presence-aware union of an optional contribution into an optional
bitmap: `none` contributes nothing, `some b` forces presence and ORs
`b` in.  This is the per-key effect of the merge step of
`mergeLocalIndexes`. -/
def oPlus (o c : Option Bitmap) : Option Bitmap :=
  match c with
  | none => o
  | some b => some (o.getD ∅ ∪ b)

/-- Combined per-key content of a list of optional bitmaps. -/
def bigPlus (l : List (Option Bitmap)) : Option Bitmap :=
  l.foldl oPlus none

/-- The three documents of the example index, as a batch. -/
def exDocs : List GoDoc :=
  [⟨1, [72, 101, 108, 108, 111, 32, 87, 111, 114, 108, 100]⟩,
   ⟨2, [72, 101, 108, 108, 111, 32, 116, 104, 101, 114, 101]⟩,
   ⟨3, [87, 111, 114, 108, 100, 32, 112, 101, 97, 99, 101]⟩]

/-- `q` lies in the binary-heap subtree rooted at `i` (parent of `q` is
`(q-1)/2`, as in `container/heap`). -/
def isDesc (i q : Nat) : Bool :=
  if q ≤ i then q == i else isDesc i ((q - 1) / 2)
termination_by q
decreasing_by omega

/-- The `container/heap` invariant over the first `n` positions: no child
compares `less` than its parent. -/
def IsHeap {β : Type} [Inhabited β] (less : β → β → Bool) (l : List β) (n : Nat) :
    Prop :=
  ∀ p c, c < n → (c = 2 * p + 1 ∨ c = 2 * p + 2) →
    less (l.getD c default) (l.getD p default) = false

/-- The materialized `(docID, value)` result rows of a sort column. -/
def colResults {T : Type} [Inhabited T] (values : List T) (docIDs : List Nat) :
    List (SortedResult T) :=
  docIDs.map fun d => ⟨d, getValue values d⟩

/-- Counterexample data for the heap partial sort: twelve documents whose
values contain ties. -/
def exVals : List Nat := [0, 5, 5, 10, 10, 10, 10, 10, 10, 10, 10, 10]

/-- Document IDs 1–12 (value of doc `d` is `exVals[d]`; doc 12 reads out
of range and gets the zero value 0). -/
def exIDs : List Nat := [1, 2, 3, 4, 5, 6, 7, 8, 9, 10, 11, 12]

/-- Invariant of the bounded-heap selection loop of `heapSort`: while
filling, `items` is exactly the processed results in order; once full it
is a `limit`-sized heap; `items ++ dropped` is a permutation of all
processed results and every kept item compares no worse than every
dropped one. -/
def SelInv {T : Type} [LinearOrder T] [Inhabited T] (asc : Bool) (limit : Nat)
    (values : List T) (processed : List Nat)
    (items dropped : List (SortedResult T)) : Prop :=
  ((items = colResults values processed ∧ items.length < limit ∧ dropped = []) ∨
    (items.length = limit ∧ IsHeap (heapLess asc) items limit)) ∧
  (items ++ dropped).Perm (colResults values processed) ∧
  (∀ x ∈ items, ∀ y ∈ dropped, heapLess asc x y = false)

/-! ## Theorems

### C4: the byte-budget invariant of the cached index -/

theorem evictLoop_spec (budget s : Nat) :
    ∀ (n : Nat) (entries : List (Nat × Nat)) (cur : Nat), entries.length ≤ n →
    cur = (entries.map Prod.snd).sum →
    (evictLoop budget s entries cur).2 =
        (((evictLoop budget s entries cur).1).map Prod.snd).sum ∧
      ((evictLoop budget s entries cur).2 + s ≤ budget ∨
        (evictLoop budget s entries cur).1 = []) := by
  intro n
  induction n with
  | zero =>
    intro entries cur hlen hc
    have hnil : entries = [] := List.eq_nil_of_length_eq_zero (Nat.le_zero.mp hlen)
    subst hnil
    rw [evictLoop.eq_def]
    by_cases hle : cur + s ≤ budget
    · rw [if_pos hle]
      exact ⟨hc, Or.inl hle⟩
    · rw [if_neg hle]
      simp only [List.map_nil, List.sum_nil] at hc
      simp [hc]
  | succ n ih =>
    intro entries cur hlen hc
    rw [evictLoop.eq_def]
    by_cases hle : cur + s ≤ budget
    · rw [if_pos hle]
      exact ⟨hc, Or.inl hle⟩
    · rw [if_neg hle]
      match entries, hlen, hc with
      | [], _, hc =>
        simp only [List.map_nil, List.sum_nil] at hc
        simp [hc]
      | e :: es, hlen, hc =>
        have hsplit : (e :: es).dropLast ++ [(e :: es).getLastD (0, 0)] = e :: es := by
          rw [List.getLastD_eq_getLast?, List.getLast?_eq_getLast _ (by simp)]
          simp [List.dropLast_concat_getLast]
        have hsum : ((e :: es).map Prod.snd).sum =
            (((e :: es).dropLast).map Prod.snd).sum + ((e :: es).getLastD (0, 0)).2 := by
          conv_lhs => rw [← hsplit]
          simp
        refine ih ((e :: es).dropLast) _ ?_ (by omega)
        simp only [List.length_dropLast, List.length_cons] at hlen ⊢
        omega

theorem cons_erase_perm (e : Nat × Nat) :
    ∀ entries : List (Nat × Nat), e ∈ entries → (e :: entries.erase e).Perm entries := by
  intro entries he
  induction entries with
  | nil => cases he
  | cons x xs ih =>
    rw [List.erase_cons]
    by_cases hx : x == e
    · rw [if_pos hx]
      rw [show x = e from eq_of_beq hx]
    · rw [if_neg hx]
      have he' : e ∈ xs := by
        cases List.mem_cons.mp he with
        | inl h => exact absurd (beq_of_eq h.symm) hx
        | inr h => exact h
      exact (List.Perm.swap x e _).trans ((ih he').cons x)

theorem moveToFront_perm (entries : List (Nat × Nat)) (k : Nat) :
    (moveToFront entries k).Perm entries := by
  cases hf : entries.find? (fun e => e.1 == k) with
  | none => rw [moveToFront, hf]
  | some e =>
    rw [moveToFront, hf]
    exact cons_erase_perm e entries (List.mem_of_find?_eq_some hf)

theorem byteCacheStep_inv (st : ByteCache) (op : CacheOp)
    (h1 : st.currentBytes = (st.entries.map Prod.snd).sum)
    (h2 : st.currentBytes ≤ st.budget ∨
      ∃ k s, st.entries = [(k, s)] ∧ st.budget < s) :
    (st.step op).budget = st.budget ∧
      (st.step op).currentBytes = (((st.step op).entries).map Prod.snd).sum ∧
      ((st.step op).currentBytes ≤ st.budget ∨
        ∃ k s, (st.step op).entries = [(k, s)] ∧ st.budget < s) := by
  cases op with
  | clear => simp [ByteCache.step]
  | hit k =>
    have hperm := (moveToFront_perm st.entries k).map Prod.snd
    refine ⟨rfl, by simpa [ByteCache.step, hperm.sum_eq] using h1, ?_⟩
    rcases h2 with h2 | ⟨k0, s0, he, hs⟩
    · exact Or.inl h2
    · refine Or.inr ⟨k0, s0, ?_, hs⟩
      simp only [ByteCache.step]
      rw [he]
      simp [moveToFront]
      split <;> simp_all [List.erase_cons]
  | load k s =>
    simp only [ByteCache.step]
    split
    · have hperm := (moveToFront_perm st.entries k).map Prod.snd
      refine ⟨rfl, by simpa [hperm.sum_eq] using h1, ?_⟩
      rcases h2 with h2 | ⟨k0, s0, he, hs⟩
      · exact Or.inl h2
      · refine Or.inr ⟨k0, s0, ?_, hs⟩
        rw [he]
        simp [moveToFront]
        split <;> simp_all [List.erase_cons]
    · obtain ⟨hsum, hdone⟩ :=
        evictLoop_spec st.budget s st.entries.length st.entries st.currentBytes
          (Nat.le_refl _) h1
      refine ⟨rfl, by simp [hsum, Nat.add_comm], ?_⟩
      rcases hdone with hle | hempty
      · exact Or.inl hle
      · rcases le_or_lt s st.budget with hs | hs
        · left
          simp only [hempty] at hsum
          simp only [hsum]
          simpa using hs
        · right
          exact ⟨k, s, by rw [hempty], hs⟩

theorem byteCacheRun_inv (budget : Nat) (ops : List CacheOp) (st : ByteCache)
    (hb : st.budget = budget)
    (h1 : st.currentBytes = (st.entries.map Prod.snd).sum)
    (h2 : st.currentBytes ≤ budget ∨ ∃ k s, st.entries = [(k, s)] ∧ budget < s) :
    (ops.foldl ByteCache.step st).budget = budget ∧
      (ops.foldl ByteCache.step st).currentBytes =
        (((ops.foldl ByteCache.step st).entries).map Prod.snd).sum ∧
      ((ops.foldl ByteCache.step st).currentBytes ≤ budget ∨
        ∃ k s, (ops.foldl ByteCache.step st).entries = [(k, s)] ∧ budget < s) := by
  induction ops generalizing st with
  | nil => exact ⟨hb, h1, h2⟩
  | cons op rest ih =>
    obtain ⟨hb', h1', h2'⟩ := byteCacheStep_inv st op h1 (hb.symm ▸ h2)
    exact ih (ByteCache.step st op) (hb'.trans hb) h1' (hb ▸ h2')

/-- Claim C4: for a cached index opened with byte budget `B`, after every
public call completes the cache's byte total `current_bytes` is at most
`B`, except when the cache holds exactly one entry whose single bitmap
exceeds `B` (the documented oversized-singleton exception).  Modelled
from the spec (§4.5): the byte-budget admission code is not among the
source files; only its tests and README mention `WithMemoryBudget`. -/
theorem cachedIndex_budget_invariant (budget : Nat) (ops : List CacheOp) :
    (runCache budget ops).currentBytes ≤ budget ∨
      ∃ k s, (runCache budget ops).entries = [(k, s)] ∧ budget < s ∧
        (runCache budget ops).currentBytes = s := by
  rw [runCache]
  obtain ⟨-, h1, h2⟩ :=
    byteCacheRun_inv budget ops (ByteCache.init budget) rfl (by simp [ByteCache.init])
      (Or.inl (by simp [ByteCache.init]))
  rcases h2 with h | ⟨k, s, he, hs⟩
  · exact Or.inl h
  · refine Or.inr ⟨k, s, he, hs, ?_⟩
    rw [h1, he]
    simp

/-! ### C10: `LoadFromFile` always installs the default normalizer -/

theorem readFrom_preserves_normalizer (idx : Index) (b : Bytes) (idx' : Index)
    (h : idx.ReadFrom b = .ok idx') :
    idx'.normalizer = idx.normalizer ∧ idx'.useASCIFastPath = idx.useASCIFastPath := by
  unfold Index.ReadFrom at h
  split at h
  · exact absurd h (by simp)
  · split at h
    · exact absurd h (by simp)
    · dsimp only at h
      split at h
      · exact absurd h (by simp)
      · split at h
        · exact absurd h (by simp)
        · simp only [Except.ok.injEq] at h
          subst h
          exact ⟨rfl, rfl⟩

/-- Claim C10: `LoadFromFile` returns an index whose normalizer is the
default alphanumeric normalizer with the ASCII fast path enabled,
regardless of the normalizer configured on the saved index — the
persisted format stores no normalizer (`WriteTo` is unchanged under any
normalizer/fast-path configuration). -/
theorem loadFromFile_default_normalizer :
    (∀ (b : Bytes) (idx' : Index), LoadFromFile b = .ok idx' →
        idx'.normalizer = NormalizeLowercaseAlphanumeric ∧ idx'.useASCIFastPath = true) ∧
      ∀ (idx : Index) (n : GoStr → GoStr) (f : Bool),
        Index.WriteTo { idx with normalizer := n, useASCIFastPath := f } = idx.WriteTo := by
  constructor
  · intro b idx' h
    exact readFrom_preserves_normalizer (NewIndex 3) b idx' h
  · intro idx n f
    rfl

/-- Witness for C10 at a concrete saved file: loading the serialized
empty trigram index yields the default normalizer and fast path. -/
theorem loadFromFile_default_normalizer_witness :
    ∃ idx' : Index, LoadFromFile ((NewIndex 3).WriteTo) = .ok idx' ∧
      idx'.normalizer = NormalizeLowercaseAlphanumeric ∧ idx'.useASCIFastPath = true := by
  have h : LoadFromFile ((NewIndex 3).WriteTo) =
      .ok { gramSize := 3, normalizer := NormalizeLowercaseAlphanumeric, bitmaps := [],
            useASCIFastPath := true } := rfl
  exact ⟨_, h, (loadFromFile_default_normalizer.1 _ _ h).1,
    (loadFromFile_default_normalizer.1 _ _ h).2⟩

/-! ### C5: loader validation (`ReadFrom` validates every field; the
cached-index `loadIndex` checks only magic and version) -/

theorem readN_ok (n : Nat) (b xs rest : Bytes) (h : readN n b = .ok (xs, rest)) :
    xs = b.take n ∧ rest = b.drop n ∧ n ≤ b.length := by
  unfold readN at h
  split at h
  · exact absurd h (by simp)
  · simp only [Except.ok.injEq, Prod.mk.injEq] at h
    exact ⟨h.1.symm, h.2.symm, by omega⟩

theorem readHeader_ok (b : Bytes) (g : Nat) (rest : Bytes)
    (h : readHeader b = .ok (g, rest)) :
    b.take 4 = magicHeader ∧ decodeU16 ((b.take 8).drop 4) = 2 ∧
      g = decodeU16 ((b.take 8).drop 6) ∧ 1 ≤ g ∧ g ≤ 8 ∧ rest = b.drop 8 := by
  unfold readHeader at h
  split at h
  · exact absurd h (by simp)
  · rename_i x h8 r8 heq
    obtain ⟨hx, hr, hlen⟩ := readN_ok _ _ _ _ heq
    subst hx hr
    split at h
    · exact absurd h (by simp)
    · split at h
      · exact absurd h (by simp)
      · dsimp only at h
        split at h
        · exact absurd h (by simp)
        · simp only [Except.ok.injEq, Prod.mk.injEq] at h
          rename_i hmagic hver hgram
          rw [not_not] at hmagic
          rw [not_not] at hver
          push_neg at hgram
          refine ⟨?_, hver, h.1.symm, by omega, by omega, h.2.symm⟩
          rw [← hmagic, List.take_take]
          norm_num

theorem readNgramEntry_ok (b : Bytes) (e : Nat × Bitmap) (b' : Bytes)
    (h : readNgramEntry b = .ok (e, b')) :
    e.1 = decodeU64 (b.take 8) ∧ decodeU32 ((b.drop 8).take 4) ≤ maxBitmapSize := by
  unfold readNgramEntry at h
  split at h
  · exact absurd h (by simp)
  · rename_i x kb b1 heq
    obtain ⟨hkb, hb1, -⟩ := readN_ok _ _ _ _ heq
    subst hkb hb1
    split at h
    · exact absurd h (by simp)
    · rename_i x2 sb b2 heq2
      obtain ⟨hsb, hb2, -⟩ := readN_ok _ _ _ _ heq2
      subst hsb hb2
      dsimp only at h
      split at h
      · exact absurd h (by simp)
      · rename_i hsize
        split at h
        · exact absurd h (by simp)
        · rename_i x3 payload b3 heq3
          split at h
          · exact absurd h (by simp)
          · simp only [Except.ok.injEq, Prod.mk.injEq] at h
            refine ⟨?_, by omega⟩
            rw [← h.1]

theorem readFrom_ok_bounds (idx : Index) (b : Bytes) (idx' : Index)
    (h : idx.ReadFrom b = .ok idx') :
    b.take 4 = magicHeader ∧ decodeU16 ((b.take 8).drop 4) = 2 ∧
      idx'.gramSize = decodeU16 ((b.take 8).drop 6) ∧ 1 ≤ idx'.gramSize ∧
      idx'.gramSize ≤ 8 ∧ decodeU32 ((b.drop 8).take 4) ≤ maxNgramCount := by
  unfold Index.ReadFrom at h
  split at h
  · exact absurd h (by simp)
  · rename_i x g b1 hhdr
    obtain ⟨hmagic, hver, hg, hg1, hg8, hrest⟩ := readHeader_ok b g b1 hhdr
    subst hrest
    split at h
    · exact absurd h (by simp)
    · rename_i x2 cb b2 hcnt
      obtain ⟨hcb, hb2, -⟩ := readN_ok _ _ _ _ hcnt
      subst hcb hb2
      dsimp only at h
      split at h
      · exact absurd h (by simp)
      · rename_i hcount
        split at h
        · exact absurd h (by simp)
        · simp only [Except.ok.injEq] at h
          subst h
          exact ⟨hmagic, hver, hg, hg1, hg8, by omega⟩

theorem loadIndex_ok_checks (file : Bytes) (meta : CachedIndexMeta)
    (h : loadIndex file = .ok meta) :
    file.take 4 = magicHeader ∧ decodeU16 ((file.drop 4).take 2) = 2 ∧
      meta.gramSize = decodeU16 ((file.drop 6).take 2) := by
  unfold loadIndex at h
  split at h
  · exact absurd h (by simp)
  · split at h
    · exact absurd h (by simp)
    · split at h
      · exact absurd h (by simp)
      · dsimp only at h
        split at h
        · exact absurd h (by simp)
        · rename_i hlen8 hmagic hver hlen12
          rw [not_not] at hmagic
          rw [not_not] at hver
          cases hscan : cachedReadEntries file (decodeU32 ((file.drop 8).take 4)) 12 [] with
          | error e => rw [hscan] at h; exact absurd h (by simp [Except.map])
          | ok m =>
            rw [hscan] at h
            simp only [Except.map, Except.ok.injEq] at h
            subst h
            exact ⟨hmagic, hver, rfl⟩

theorem decodeU16_u16le (g : Nat) : decodeU16 (u16le g) = g % 2 ^ 16 := by
  simp only [decodeU16, u16le, List.getD]
  simp
  omega

theorem decodeU32_u32le (v : Nat) : decodeU32 (u32le v) = v % 2 ^ 32 := by
  simp only [decodeU32, u32le, List.getD]
  simp
  omega

theorem decodeU64_u64le (v : Nat) : decodeU64 (u64le v) = v % 2 ^ 64 := by
  simp only [decodeU64, u64le, List.getD]
  simp
  omega

/-- Claim C5 (counterexample): a file with valid magic and version but
gram size `0` — a field violation the claim says every loader rejects —
is accepted by the cached-index open `loadIndex`. -/
theorem loadIndex_accepts_gram_zero :
    loadIndex [70, 84, 83, 82, 2, 0, 0, 0, 0, 0, 0, 0] =
      .ok ⟨0, []⟩ ∧ ¬ (1 ≤ 0 ∧ (0 : Nat) ≤ 8) := by
  constructor
  · rfl
  · simp

/-- Claim C5 (amended): the full in-memory load `Index.ReadFrom` fails
with a hard error on every field violation — wrong magic, wrong version,
gram size outside 1..8, entry count above 100 000 000, bitmap size above
100 MiB (checked before the payload is read) — while the cached-index
open `loadIndex` checks only magic and version: it accepts any gram
size field (shown for count 0) and any bitmap size field, including
oversize ones (shown for a single-entry file whose size field it merely
records and skips). -/
theorem loader_validation :
    (∀ (idx : Index) (b : Bytes) (idx' : Index), idx.ReadFrom b = .ok idx' →
        b.take 4 = magicHeader ∧ decodeU16 ((b.take 8).drop 4) = 2 ∧
          1 ≤ idx'.gramSize ∧ idx'.gramSize ≤ 8 ∧
          decodeU32 ((b.drop 8).take 4) ≤ maxNgramCount) ∧
    (∀ (b : Bytes) (e : Nat × Bitmap) (b' : Bytes), readNgramEntry b = .ok (e, b') →
        decodeU32 ((b.drop 8).take 4) ≤ maxBitmapSize) ∧
    (∀ (file : Bytes) (meta : CachedIndexMeta), loadIndex file = .ok meta →
        file.take 4 = magicHeader ∧ decodeU16 ((file.drop 4).take 2) = 2) ∧
    (∀ g : Nat, loadIndex (magicHeader ++ u16le 2 ++ u16le g ++ u32le 0) =
        .ok ⟨g % 2 ^ 16, []⟩) ∧
    (∀ key size : Nat, size < 2 ^ 32 →
        loadIndex (magicHeader ++ u16le 2 ++ u16le 3 ++ u32le 1 ++ u64le key ++ u32le size) =
          .ok ⟨3, [(key % 2 ^ 64, ⟨24, size⟩)]⟩) := by
  refine ⟨?_, ?_, ?_, ?_, ?_⟩
  · intro idx b idx' h
    obtain ⟨h1, h2, -, h4, h5, h6⟩ := readFrom_ok_bounds idx b idx' h
    exact ⟨h1, h2, h4, h5, h6⟩
  · intro b e b' h
    exact (readNgramEntry_ok b e b' h).2
  · intro file meta h
    obtain ⟨h1, h2, -⟩ := loadIndex_ok_checks file meta h
    exact ⟨h1, h2⟩
  · intro g
    unfold loadIndex
    norm_num [magicHeader, u16le, u32le, decodeU16, decodeU32, List.getD, cachedReadEntries]
    simp only [Except.map, Except.ok.injEq, CachedIndexMeta.mk.injEq, and_true]
    omega
  · intro key size hsize
    unfold loadIndex
    simp only [magicHeader, u16le, u32le, u64le]
    norm_num [decodeU16, decodeU32, List.getD, cachedReadEntries, mapSet]
    simp only [Except.map, Except.ok.injEq, CachedIndexMeta.mk.injEq, List.cons.injEq,
      Prod.mk.injEq, NgramLoc.mk.injEq, decodeU64, List.getD, and_true]
    norm_num
    omega

/-- Witness for the amended C5 at concrete inputs: a wrong-magic file is
rejected by both loaders, a gram-9 header is rejected by `ReadFrom`, and
`loadIndex` accepts the gram-0 header. -/
theorem loader_validation_witness :
    (∀ idx' : Index,
        (NewIndex 3).ReadFrom [70, 84, 83, 82, 2, 0, 9, 0, 0, 0, 0, 0] ≠ .ok idx') ∧
      loadIndex (magicHeader ++ u16le 2 ++ u16le 0 ++ u32le 0) = .ok ⟨0, []⟩ := by
  constructor
  · intro idx' h
    obtain ⟨-, -, -, h5, -⟩ := (loader_validation.1 _ _ _ h)
    have hg : idx'.gramSize = 9 := by
      have := (readFrom_ok_bounds _ _ _ h).2.2.1
      simpa [decodeU16, List.getD] using this
    omega
  · simpa using loader_validation.2.2.2.1 0

/-! ### C3: save/load round trip -/

theorem parseDocList_serialize (docs : List Nat) (h : ∀ d ∈ docs, d < 2 ^ 32) :
    parseDocList ((docs.map u32le).flatten) = some docs := by
  induction docs with
  | nil => rfl
  | cons d ds ih =>
    have hd : d < 2 ^ 32 := h d (by simp)
    have hih := ih fun x hx => h x (by simp [hx])
    simp only [List.map_cons, List.flatten_cons, u32le, List.cons_append, List.nil_append,
      List.append_eq, parseDocList, hih, Option.map_some]
    simp only [Option.map_some', Option.some.injEq, List.cons.injEq, and_true, true_and]
    have h8 : (2 : Nat) ^ 8 = 256 := rfl
    have h16 : (2 : Nat) ^ 16 = 65536 := rfl
    have h24 : (2 : Nat) ^ 24 = 16777216 := rfl
    have h32 : (2 : Nat) ^ 32 = 4294967296 := rfl
    rw [h8, h16, h24]
    rw [h32] at hd
    omega

theorem deserialize_serialize (bm : Bitmap) (h : ∀ d ∈ bm, d < 2 ^ 32) :
    deserializeBitmap (serializeBitmap bm) = some bm := by
  unfold deserializeBitmap serializeBitmap
  rw [parseDocList_serialize (bmToArray bm) (by
    intro d hd
    exact h d (by simpa [bmToArray, Finset.mem_sort] using hd))]
  show some ((bm.sort (· ≤ ·)).toFinset) = some bm
  rw [Finset.sort_toFinset]

theorem serializeBitmap_length (bm : Bitmap) : (serializeBitmap bm).length = 4 * bm.card := by
  have h : ∀ l : List Nat, ((l.map u32le).flatten).length = 4 * l.length := by
    intro l
    induction l with
    | nil => rfl
    | cons x xs ih =>
      simp only [List.map_cons, List.flatten_cons, List.length_append, ih, u32le,
        List.length_cons, List.length_nil]
      omega
  unfold serializeBitmap
  rw [h]
  rw [show (bmToArray bm).length = bm.card from Finset.length_sort _]

theorem readN_exact (xs ys : Bytes) (n : Nat) (h : xs.length = n) :
    readN n (xs ++ ys) = .ok (xs, ys) := by
  subst h
  unfold readN
  rw [if_neg (by simp)]
  rw [List.take_left, List.drop_left]

/-- One serialized map entry of `WriteTo`. -/
def encodeEntry (e : Nat × Bitmap) : Bytes :=
  u64le e.1 ++ u32le (serializeBitmap e.2).length ++ serializeBitmap e.2

theorem mapSet_append_fresh (m : List (Nat × Bitmap)) (k : Nat) (bm : Bitmap)
    (h : mapLookup m k = none) : mapSet m k bm = m ++ [(k, bm)] := by
  induction m with
  | nil => rfl
  | cons e rest ih =>
    obtain ⟨k', bm'⟩ := e
    unfold mapLookup at h
    split at h
    · exact absurd h (by simp)
    · rename_i hne
      show (if k' = k then (k', bm) :: rest else (k', bm') :: mapSet rest k bm) = _
      rw [if_neg hne, ih h]
      rfl

theorem mapLookup_append_singleton (m : List (Nat × Bitmap)) (k k' : Nat) (bm : Bitmap) :
    mapLookup (m ++ [(k, bm)]) k' =
      ((mapLookup m k').orElse (fun _ => if k = k' then some bm else none)) := by
  induction m with
  | nil => simp [mapLookup]
  | cons e rest ih =>
    obtain ⟨ke, be⟩ := e
    by_cases hk : ke = k'
    · simp [mapLookup, hk]
    · simpa [mapLookup, hk] using ih

theorem readNgramEntry_encoded (e : Nat × Bitmap) (rest : Bytes)
    (hkey : e.1 < 2 ^ 64)
    (hdocs : ∀ d ∈ e.2, d < 2 ^ 32)
    (hsize : (serializeBitmap e.2).length ≤ maxBitmapSize) :
    readNgramEntry (encodeEntry e ++ rest) = .ok (e, rest) := by
  unfold readNgramEntry encodeEntry
  rw [List.append_assoc, List.append_assoc]
  rw [readN_exact (u64le e.1) _ 8 rfl]
  dsimp only
  rw [readN_exact (u32le (serializeBitmap e.2).length) _ 4 rfl]
  dsimp only
  rw [decodeU32_u32le]
  have hlt : (serializeBitmap e.2).length % 2 ^ 32 = (serializeBitmap e.2).length := by
    have : maxBitmapSize < 2 ^ 32 := by norm_num [maxBitmapSize]
    omega
  rw [hlt, if_neg (by omega)]
  rw [readN_exact (serializeBitmap e.2) rest _ rfl]
  dsimp only
  rw [deserialize_serialize e.2 hdocs]
  rw [decodeU64_u64le, Nat.mod_eq_of_lt hkey]

theorem readEntries_encoded :
    ∀ (l : List (Nat × Bitmap)) (acc : List (Nat × Bitmap)),
    (∀ e ∈ l, e.1 < 2 ^ 64) →
    (∀ e ∈ l, ∀ d ∈ e.2, d < 2 ^ 32) →
    (∀ e ∈ l, (serializeBitmap e.2).length ≤ maxBitmapSize) →
    (∀ e ∈ l, mapLookup acc e.1 = none) →
    (l.map Prod.fst).Nodup →
    readEntries l.length ((l.map encodeEntry).flatten) acc = .ok (acc ++ l, []) := by
  intro l
  induction l with
  | nil => intro acc _ _ _ _ _; simp [readEntries]
  | cons e es ih =>
    intro acc hkey hdocs hsize hfresh hnodup
    rw [List.length_cons, List.map_cons, List.flatten_cons, readEntries]
    rw [readNgramEntry_encoded e _ (hkey e (by simp)) (hdocs e (by simp)) (hsize e (by simp))]
    dsimp only
    rw [mapSet_append_fresh acc e.1 e.2 (hfresh e (by simp))]
    have hfresh' : ∀ e' ∈ es, mapLookup (acc ++ [(e.1, e.2)]) e'.1 = none := by
      intro e' he'
      rw [mapLookup_append_singleton, hfresh e' (by simp [he'])]
      have hne : e.1 ≠ e'.1 := by
        simp only [List.map_cons, List.nodup_cons] at hnodup
        intro hcontra
        exact hnodup.1 (hcontra ▸ List.mem_map_of_mem Prod.fst he')
      simp [hne]
    have := ih (acc ++ [(e.1, e.2)]) (fun x hx => hkey x (by simp [hx]))
      (fun x hx => hdocs x (by simp [hx])) (fun x hx => hsize x (by simp [hx])) hfresh'
      (by simpa using hnodup.of_cons)
    rw [this]
    simp

theorem readHeader_step (b H R : Bytes) (h : readN 8 b = .ok (H, R)) :
    readHeader b =
      (if H.take 4 ≠ magicHeader then .error .invalidMagic
      else if decodeU16 (H.drop 4) ≠ 2 then .error .invalidVersion
      else if decodeU16 (H.drop 6) < 1 ∨ 8 < decodeU16 (H.drop 6) then .error .invalidGramSize
      else .ok (decodeU16 (H.drop 6), R)) := by
  unfold readHeader
  rw [h]

theorem readFrom_step1 (idx : Index) (b b1 : Bytes) (g : Nat)
    (h : readHeader b = .ok (g, b1)) :
    idx.ReadFrom b =
      (match readN 4 b1 with
       | .error e => .error e
       | .ok (cb, b2) =>
         if maxNgramCount < decodeU32 cb then .error .invalidCount
         else match readEntries (decodeU32 cb) b2 [] with
           | .error e => .error e
           | .ok (entries, _) => .ok { idx with gramSize := g, bitmaps := entries }) := by
  unfold Index.ReadFrom
  rw [h]

theorem readFrom_step2 (idx : Index) (b b1 cb b2 : Bytes) (g : Nat)
    (h1 : readHeader b = .ok (g, b1)) (h2 : readN 4 b1 = .ok (cb, b2)) :
    idx.ReadFrom b =
      (if maxNgramCount < decodeU32 cb then .error .invalidCount
       else match readEntries (decodeU32 cb) b2 [] with
         | .error e => .error e
         | .ok (entries, _) => .ok { idx with gramSize := g, bitmaps := entries }) := by
  rw [readFrom_step1 idx b b1 g h1, h2]

theorem readHeader_writeTo (idx : Index) (hg1 : 1 ≤ idx.gramSize) (hg8 : idx.gramSize ≤ 8) :
    readHeader idx.WriteTo =
      .ok (idx.gramSize,
        u32le idx.bitmaps.length ++ (idx.bitmaps.map encodeEntry).flatten) := by
  have he : encodeEntry = fun e : Nat × Bitmap =>
      u64le e.1 ++ u32le (serializeBitmap e.2).length ++ serializeBitmap e.2 := rfl
  have hw : idx.WriteTo =
      (magicHeader ++ u16le 2 ++ u16le idx.gramSize) ++
        (u32le idx.bitmaps.length ++ (idx.bitmaps.map encodeEntry).flatten) := by
    rw [Index.WriteTo, he]
    simp only [List.append_assoc]
  rw [hw]
  rw [readHeader_step _ _ _ (readN_exact (magicHeader ++ u16le 2 ++ u16le idx.gramSize) _ 8
    (by simp [magicHeader, u16le]))]
  have hmagic : (magicHeader ++ u16le 2 ++ u16le idx.gramSize).take 4 = magicHeader := by
    simp [magicHeader, u16le]
  have hver : decodeU16 ((magicHeader ++ u16le 2 ++ u16le idx.gramSize).drop 4) = 2 := by
    simp [magicHeader, u16le, decodeU16, List.getD]
  have hgram : decodeU16 ((magicHeader ++ u16le 2 ++ u16le idx.gramSize).drop 6) =
      idx.gramSize := by
    simp only [magicHeader, u16le]
    simp [decodeU16, List.getD]
    omega
  rw [hmagic, hver, hgram]
  rw [if_neg (by simp), if_neg (by simp), if_neg (by omega)]

/-- Claim C3: writing an in-memory index with the persistence codec and
reading it back yields an index with the same gram size and exactly the
same key → bitmap content (hence the same key set and, for every key,
the same bitmap cardinality and document set).  The hypotheses are the
representation bounds of the on-disk format: gram size 1..8 (as enforced
by `NewIndex` and `ReadFrom`), at most 100 000 000 entries, 64-bit keys
without duplicates (Go map keys are unique), 32-bit document IDs, and
serialized bitmaps within the 100 MiB bound. -/
theorem index_save_load_roundtrip (idx idx0 : Index)
    (hg1 : 1 ≤ idx.gramSize) (hg8 : idx.gramSize ≤ 8)
    (hcount : idx.bitmaps.length ≤ maxNgramCount)
    (hkeys : (idx.bitmaps.map Prod.fst).Nodup)
    (hkey64 : ∀ e ∈ idx.bitmaps, e.1 < 2 ^ 64)
    (hdocs : ∀ e ∈ idx.bitmaps, ∀ d ∈ e.2, d < 2 ^ 32)
    (hcard : ∀ e ∈ idx.bitmaps, e.2.card ≤ maxBitmapSize / 4) :
    idx0.ReadFrom idx.WriteTo =
      .ok { idx0 with gramSize := idx.gramSize, bitmaps := idx.bitmaps } := by
  rw [readFrom_step2 idx0 _ _ _ _ _ (readHeader_writeTo idx hg1 hg8)
    (readN_exact (u32le idx.bitmaps.length) _ 4 rfl)]
  rw [decodeU32_u32le]
  have hcnt : idx.bitmaps.length % 2 ^ 32 = idx.bitmaps.length := by
    have : maxNgramCount < 2 ^ 32 := by norm_num [maxNgramCount]
    omega
  rw [hcnt, if_neg (by omega)]
  have hsize : ∀ e ∈ idx.bitmaps, (serializeBitmap e.2).length ≤ maxBitmapSize := by
    intro e he
    rw [serializeBitmap_length]
    have := hcard e he
    omega
  rw [readEntries_encoded idx.bitmaps [] hkey64 hdocs hsize (by simp [mapLookup]) hkeys]
  rw [List.nil_append]

/-- Witness for C3: a concrete two-document trigram index round-trips
exactly. -/
theorem index_save_load_roundtrip_witness :
    ((NewIndex 3).Add 1 [104, 101, 108, 108, 111]).ReadFrom
        (((NewIndex 3).Add 1 [104, 101, 108, 108, 111]).WriteTo) =
      .ok { (NewIndex 3).Add 1 [104, 101, 108, 108, 111] with
              gramSize := ((NewIndex 3).Add 1 [104, 101, 108, 108, 111]).gramSize,
              bitmaps := ((NewIndex 3).Add 1 [104, 101, 108, 108, 111]).bitmaps } :=
  index_save_load_roundtrip _ _ (by decide) (by decide) (by decide) (by decide)
    (by decide) (by decide) (by decide)

/-! ### C6: ASCII fast-path parity with the code-point path -/

theorem toLowerRune_le (c : Nat) (h : c ≤ 127) : toLowerRune c ≤ 127 := by
  unfold toLowerRune asciiIsUpper
  split
  · rename_i hu
    simp only [Bool.and_eq_true, decide_eq_true_eq] at hu
    omega
  · omega

theorem normalizeASCII_eq (s : GoStr) (h : ∀ c ∈ s, c ≤ 127) :
    normalizeASCII s = some (NormalizeLowercaseAlphanumeric s) := by
  induction s with
  | nil => rfl
  | cons c rest ih =>
    have hc : c ≤ 127 := h c (by simp)
    have hih := ih fun x hx => h x (by simp [hx])
    unfold normalizeASCII
    rw [if_neg (by omega)]
    by_cases hu : asciiIsUpper c
    · rw [if_pos hu, hih]
      simp only [Option.map_some', Option.some.injEq]
      unfold NormalizeLowercaseAlphanumeric
      rw [List.filter_cons, if_pos (by simp [isLetterOrDigit, hu])]
      rw [List.map_cons]
      unfold toLowerRune
      rw [if_pos hu]
    · rw [if_neg hu]
      by_cases hl : asciiIsLowerAlnum c
      · rw [if_pos hl, hih]
        simp only [Option.map_some', Option.some.injEq]
        unfold NormalizeLowercaseAlphanumeric
        rw [List.filter_cons, if_pos (by simp [isLetterOrDigit, hl])]
        rw [List.map_cons]
        unfold toLowerRune
        rw [if_neg hu]
      · rw [if_neg hl, hih]
        unfold NormalizeLowercaseAlphanumeric
        rw [List.filter_cons, if_neg (by simp [isLetterOrDigit, hu, hl])]

theorem normalized_le (s : GoStr) (h : ∀ c ∈ s, c ≤ 127) :
    ∀ c' ∈ NormalizeLowercaseAlphanumeric s, c' ≤ 127 := by
  intro c' hc'
  unfold NormalizeLowercaseAlphanumeric at hc'
  obtain ⟨c, hc, rfl⟩ := List.mem_map.mp hc'
  exact toLowerRune_le c (h c (List.mem_of_mem_filter hc))

theorem mem_ngramWindows (gram : Nat) :
    ∀ (l : GoStr) (w : GoStr), w ∈ ngramWindows gram l →
      w.length = gram ∧ ∀ x ∈ w, x ∈ l := by
  intro l
  induction l with
  | nil => intro w hw; cases hw
  | cons c rest ih =>
    intro w hw
    unfold ngramWindows at hw
    split at hw
    · cases hw
    · rename_i hlen
      rw [List.mem_cons] at hw
      cases hw with
      | inl hw =>
        subst hw
        constructor
        · rw [List.length_take]
          simp only [List.length_cons] at hlen ⊢
          omega
        · intro x hx
          exact List.take_subset _ _ hx
      | inr hw =>
        obtain ⟨h1, h2⟩ := ih w hw
        exact ⟨h1, fun x hx => List.mem_cons_of_mem c (h2 x hx)⟩

theorem ngramWindows_short (gram : Nat) (l : GoStr) (h : l.length < gram) :
    ngramWindows gram l = [] := by
  cases l with
  | nil => rfl
  | cons c rest => rw [ngramWindows, if_pos h]

theorem packASCIIKey_eq_runeNgramKey (gram : Nat) (w : GoStr) (hlen : w.length = gram)
    (h127 : ∀ x ∈ w, x ≤ 127) (hg1 : 1 ≤ gram) (hg8 : gram ≤ 8) :
    packASCIIKey gram w = runeNgramKey w := by
  unfold packASCIIKey runeNgramKey
  by_cases h2 : gram ≤ 2
  · rw [if_pos h2, if_pos (by omega)]
    rfl
  · rw [if_neg h2, if_neg (by omega), if_pos (by omega),
      if_pos (List.all_eq_true.mpr fun x hx => decide_eq_true (h127 x hx))]
    rfl

/-- Claim C6: for every pure-ASCII input and every gram size 1–8, the
byte-level ASCII fast path (`normalizeAndKeyASCII`) succeeds and produces
exactly the same sequence of deduplicated 64-bit n-gram keys as the
code-point path: normalize with `NormalizeLowercaseAlphanumeric`, key
every window with `runeNgramKey`, deduplicate keeping first
occurrences. -/
theorem fastPath_parity (s : GoStr) (gram : Nat) (hascii : ∀ c ∈ s, c ≤ 127)
    (hg1 : 1 ≤ gram) (hg8 : gram ≤ 8) :
    normalizeAndKeyASCII s gram =
      some (dedupFold
        ((ngramWindows gram (NormalizeLowercaseAlphanumeric s)).map runeNgramKey)) := by
  unfold normalizeAndKeyASCII
  rw [normalizeASCII_eq s hascii]
  show (if (NormalizeLowercaseAlphanumeric s).length < gram then some []
      else some (dedupFold ((ngramWindows gram (NormalizeLowercaseAlphanumeric s)).map
        (packASCIIKey gram)))) = _
  by_cases hlen : (NormalizeLowercaseAlphanumeric s).length < gram
  · rw [if_pos hlen, ngramWindows_short gram _ hlen]
    rfl
  · rw [if_neg hlen]
    congr 2
    refine List.map_congr_left fun w hw => ?_
    obtain ⟨hwlen, hwmem⟩ := mem_ngramWindows gram _ w hw
    exact packASCIIKey_eq_runeNgramKey gram w hwlen
      (fun x hx => normalized_le s hascii x (hwmem x hx)) hg1 hg8

/-- Witness for C6: the fast path and the code-point path agree on the
text `"Hello World"` with trigrams. -/
theorem fastPath_parity_witness :
    normalizeAndKeyASCII [72, 101, 108, 108, 111, 32, 87, 111, 114, 108, 100] 3 =
      some (dedupFold
        ((ngramWindows 3
          (NormalizeLowercaseAlphanumeric
            [72, 101, 108, 108, 111, 32, 87, 111, 114, 108, 100])).map runeNgramKey)) :=
  fastPath_parity _ 3 (by decide) (by decide) (by decide)

/-! ### C1 and C7: the AND query and its limited variant -/

theorem mem_foldl_inter (d : Nat) :
    ∀ (rest : List Bitmap) (acc : Bitmap),
      d ∈ rest.foldl (· ∩ ·) acc ↔ d ∈ acc ∧ ∀ bm ∈ rest, d ∈ bm := by
  intro rest
  induction rest with
  | nil => simp
  | cons b bs ih =>
    intro acc
    rw [List.foldl_cons, ih]
    simp only [Finset.mem_inter, List.mem_cons]
    constructor
    · rintro ⟨⟨h1, h2⟩, h3⟩
      exact ⟨h1, fun bm hbm => hbm.elim (fun he => he ▸ h2) (h3 bm)⟩
    · rintro ⟨h1, h2⟩
      exact ⟨⟨h1, h2 b (Or.inl rfl)⟩, fun bm hbm => h2 bm (Or.inr hbm)⟩

theorem mem_fastAnd (l : List Bitmap) (d : Nat) :
    d ∈ fastAnd l ↔ l ≠ [] ∧ ∀ bm ∈ l, d ∈ bm := by
  cases l with
  | nil => simp [fastAnd]
  | cons b bs =>
    rw [fastAnd, mem_foldl_inter]
    simp only [ne_eq, reduceCtorEq, not_false_iff, true_and, List.mem_cons]
    constructor
    · rintro ⟨h1, h2⟩
      exact fun bm hbm => hbm.elim (fun he => he ▸ h1) (h2 bm)
    · intro h
      exact ⟨h b (Or.inl rfl), fun bm hbm => h bm (Or.inr hbm)⟩

theorem fastAnd_perm (l l' : List Bitmap) (h : l.Perm l') : fastAnd l = fastAnd l' := by
  apply Finset.ext
  intro d
  rw [mem_fastAnd, mem_fastAnd]
  have hnil : l = [] ↔ l' = [] :=
    ⟨fun he => List.Perm.eq_nil (he ▸ h).symm, fun he => List.Perm.eq_nil (he ▸ h)⟩
  constructor
  · rintro ⟨h1, h2⟩
    exact ⟨fun he => h1 (hnil.mpr he), fun bm hbm => h2 bm (h.mem_iff.mpr hbm)⟩
  · rintro ⟨h1, h2⟩
    exact ⟨fun he => h1 (hnil.mp he), fun bm hbm => h2 bm (h.mem_iff.mp hbm)⟩

theorem fastAnd_sortByCard (l : List Bitmap) :
    fastAnd (sortBitmapsByCardinality l) = fastAnd l :=
  fastAnd_perm _ _ (List.perm_insertionSort _ l)

theorem collectBitmaps_ok (m : List (Nat × Bitmap)) :
    ∀ (keys : List Nat) (bms : List Bitmap), collectBitmaps m keys = some bms →
      bms = keys.map (fun k => (mapLookup m k).getD ∅) ∧
        ∀ k ∈ keys, (mapLookup m k).isSome := by
  intro keys
  induction keys with
  | nil =>
    intro bms h
    simp only [collectBitmaps, Option.some.injEq] at h
    simp [← h]
  | cons k rest ih =>
    intro bms h
    unfold collectBitmaps at h
    cases hk : mapLookup m k with
    | none => rw [hk] at h; exact absurd h (by simp)
    | some bm =>
      rw [hk] at h
      cases hr : collectBitmaps m rest with
      | none => rw [hr] at h; exact absurd h (by simp)
      | some bms' =>
        rw [hr] at h
        simp only [Option.map_some', Option.some.injEq] at h
        obtain ⟨h1, h2⟩ := ih bms' hr
        subst h
        refine ⟨?_, ?_⟩
        · rw [List.map_cons, ← h1, hk]
          rfl
        · intro k' hk'
          rcases List.mem_cons.mp hk' with he | hm
          · subst he
            simp [hk]
          · exact h2 k' hm

theorem collectBitmaps_none_of_absent (m : List (Nat × Bitmap)) :
    ∀ (keys : List Nat), (∃ k ∈ keys, mapLookup m k = none) →
      collectBitmaps m keys = none := by
  intro keys
  induction keys with
  | nil => rintro ⟨k, hk, -⟩; cases hk
  | cons k rest ih =>
    rintro ⟨k', hk', habs⟩
    unfold collectBitmaps
    rcases List.mem_cons.mp hk' with he | hm
    · subst he
      rw [habs]
    · cases hk : mapLookup m k with
      | none => rfl
      | some bm => rw [ih ⟨k', hm, habs⟩]; rfl

theorem dedupFold_aux_ne_nil (keys : List Nat) :
    ∀ seen : List Nat, seen ≠ [] →
      keys.foldl (fun seen k => if containsKey seen k then seen else seen ++ [k]) seen ≠ [] := by
  induction keys with
  | nil => intro seen h; exact h
  | cons k rest ih =>
    intro seen h
    rw [List.foldl_cons]
    split
    · exact ih seen h
    · exact ih (seen ++ [k]) (by simp)

theorem queryDistinctKeys_ne_nil (gram : Nat) (runes : GoStr) (hg1 : 1 ≤ gram)
    (hlen : gram ≤ runes.length) : queryDistinctKeys gram runes ≠ [] := by
  have hwin : ngramWindows gram runes ≠ [] := by
    cases runes with
    | nil => simp at hlen; omega
    | cons c rest =>
      rw [ngramWindows, if_neg (by omega)]
      simp
  unfold queryDistinctKeys dedupFold
  cases hw : (ngramWindows gram runes).map runeNgramKey with
  | nil => exact absurd (List.map_eq_nil_iff.mp hw) hwin
  | cons k ks =>
    rw [List.foldl_cons]
    exact dedupFold_aux_ne_nil ks _ (by simp [containsKey])

theorem sorted_lt_ext : ∀ (l1 l2 : List Nat), List.Sorted (· < ·) l1 →
    List.Sorted (· < ·) l2 → (∀ x, x ∈ l1 ↔ x ∈ l2) → l1 = l2 := by
  intro l1
  induction l1 with
  | nil =>
    intro l2 _ _ h
    cases l2 with
    | nil => rfl
    | cons b t2 => exact absurd ((h b).mpr (by simp)) (by simp)
  | cons a t1 ih =>
    intro l2 h1 h2 h
    cases l2 with
    | nil => exact absurd ((h a).mp (by simp)) (by simp)
    | cons b t2 =>
      rw [List.sorted_cons] at h1 h2
      have hab : a = b := by
        rcases List.mem_cons.mp ((h a).mp (by simp)) with he | hm1
        · exact he
        · rcases List.mem_cons.mp ((h b).mpr (by simp)) with he | hm2
          · exact he.symm
          · have hba := h2.1 a hm1
            have hab := h1.1 b hm2
            omega
      subst hab
      have htail : ∀ x, x ∈ t1 ↔ x ∈ t2 := by
        intro x
        constructor
        · intro hx
          have hax := h1.1 x hx
          rcases List.mem_cons.mp ((h x).mp (by simp [hx])) with he | hm
          · omega
          · exact hm
        · intro hx
          have hax := h2.1 x hx
          rcases List.mem_cons.mp ((h x).mpr (by simp [hx])) with he | hm
          · omega
          · exact hm
      rw [ih t2 h1.2 h2.2 htail]

theorem bmToArray_sorted_lt (bm : Bitmap) : List.Sorted (· < ·) (bmToArray bm) :=
  Finset.sort_sorted_lt bm

theorem mem_bmToArray (bm : Bitmap) (d : Nat) : d ∈ bmToArray bm ↔ d ∈ bm :=
  Finset.mem_sort _

theorem bmToArray_filter_fastAnd (b0 : Bitmap) (rest : List Bitmap) :
    (bmToArray b0).filter (fun d => rest.all fun bm => decide (d ∈ bm)) =
      bmToArray (fastAnd (b0 :: rest)) := by
  apply sorted_lt_ext
  · exact List.Sorted.filter _ (bmToArray_sorted_lt b0)
  · exact bmToArray_sorted_lt _
  · intro x
    rw [List.mem_filter, mem_bmToArray, mem_bmToArray, mem_fastAnd]
    simp only [List.all_eq_true, decide_eq_true_eq, ne_eq, reduceCtorEq, not_false_iff,
      true_and, List.mem_cons]
    constructor
    · rintro ⟨h1, h2⟩
      exact fun bm hbm => hbm.elim (fun he => he ▸ h1) (h2 bm)
    · intro hall
      exact ⟨hall b0 (Or.inl rfl), fun bm hbm => hall bm (Or.inr hbm)⟩

/-- The tail of `Index.Search` after the bitmaps have been collected. -/
def searchCombine (bms : List Bitmap) : List Nat :=
  match bms with
  | [] => []
  | [bm] => bmToArray bm
  | _ =>
    let sorted := sortBitmapsByCardinality bms
    let result := fastAnd sorted
    if result = ∅ then [] else bmToArray result

theorem Search_step (idx : Index) (query : GoStr) (bms : List Bitmap)
    (hlen : ¬ (idx.normalizer query).length < idx.gramSize)
    (h : collectBitmaps idx.bitmaps
      (queryDistinctKeys idx.gramSize (idx.normalizer query)) = some bms) :
    idx.Search query = searchCombine bms := by
  unfold Index.Search searchCombine
  dsimp only
  rw [if_neg hlen, h]

theorem Search_absent (idx : Index) (query : GoStr)
    (h : collectBitmaps idx.bitmaps
      (queryDistinctKeys idx.gramSize (idx.normalizer query)) = none) :
    idx.Search query = [] := by
  unfold Index.Search
  dsimp only
  split
  · rfl
  · rw [h]

theorem collectBitmaps_absent_of_none (m : List (Nat × Bitmap)) :
    ∀ keys : List Nat, collectBitmaps m keys = none →
      ∃ k ∈ keys, mapLookup m k = none := by
  intro keys
  induction keys with
  | nil => intro h; simp [collectBitmaps] at h
  | cons k rest ih =>
    intro h
    unfold collectBitmaps at h
    cases hk : mapLookup m k with
    | none => exact ⟨k, by simp, hk⟩
    | some bm =>
      rw [hk] at h
      cases hr : collectBitmaps m rest with
      | none =>
        obtain ⟨k', hk', hn⟩ := ih hr
        exact ⟨k', by simp [hk'], hn⟩
      | some bms => rw [hr] at h; simp at h

theorem Search_sorted (idx : Index) (query : GoStr) :
    List.Sorted (· < ·) (idx.Search query) := by
  unfold Index.Search
  dsimp only
  split
  · exact List.sorted_nil
  · split
    · exact List.sorted_nil
    · split
      · exact List.sorted_nil
      · exact bmToArray_sorted_lt _
      · split
        · exact List.sorted_nil
        · exact bmToArray_sorted_lt _

/-- Claim C1: when the normalized query has at least `gramSize` code
points, `Index.Search` returns empty when any distinct query key is
absent from the index, and otherwise returns exactly the intersection of
the bitmaps of all the distinct query keys, as an ascending (strictly
sorted) sequence of document IDs. -/
theorem Search_intersection (idx : Index) (query : GoStr)
    (hg1 : 1 ≤ idx.gramSize)
    (hlen : idx.gramSize ≤ (idx.normalizer query).length) :
    ((∃ k ∈ queryDistinctKeys idx.gramSize (idx.normalizer query),
        mapLookup idx.bitmaps k = none) → idx.Search query = []) ∧
      ((∀ k ∈ queryDistinctKeys idx.gramSize (idx.normalizer query),
          (mapLookup idx.bitmaps k).isSome) →
        idx.Search query =
          bmToArray (fastAnd ((queryDistinctKeys idx.gramSize (idx.normalizer query)).map
            fun k => (mapLookup idx.bitmaps k).getD ∅))) ∧
      List.Sorted (· < ·) (idx.Search query) := by
  refine ⟨?_, ?_, Search_sorted idx query⟩
  · intro habs
    exact Search_absent idx query (collectBitmaps_none_of_absent _ _ habs)
  · intro hall
    cases hc : collectBitmaps idx.bitmaps
        (queryDistinctKeys idx.gramSize (idx.normalizer query)) with
    | none =>
      exfalso
      obtain ⟨k, hk, hnone⟩ := collectBitmaps_absent_of_none _ _ hc
      have := hall k hk
      rw [hnone] at this
      cases this
    | some bms =>
      obtain ⟨hchar, -⟩ := collectBitmaps_ok idx.bitmaps _ bms hc
      rw [Search_step idx query bms (by omega) hc]
      have hne : bms ≠ [] := by
        rw [hchar]
        simp only [ne_eq, List.map_eq_nil_iff]
        exact queryDistinctKeys_ne_nil _ _ hg1 hlen
      match bms, hne, hchar with
      | [bm], _, hchar =>
        show bmToArray bm = _
        rw [← hchar]
        rfl
      | bm1 :: bm2 :: rest, _, hchar =>
        show (if fastAnd (sortBitmapsByCardinality (bm1 :: bm2 :: rest)) = ∅ then []
          else bmToArray (fastAnd (sortBitmapsByCardinality (bm1 :: bm2 :: rest)))) = _
        rw [fastAnd_sortByCard, ← hchar]
        split
        · rename_i hres
          rw [hres]
          simp [bmToArray]
        · rfl

/-- Witness for C1 on the three-document example of the repository's own
tests: both the absent-key case and the all-present intersection case. -/
theorem Search_intersection_witness :
    (1 ≤ (exampleIdx3.gramSize) ∧
      exampleIdx3.gramSize ≤ (exampleIdx3.normalizer [104, 101, 108, 108, 111]).length ∧
      exampleIdx3.Search [104, 101, 108, 108, 111] =
        bmToArray (fastAnd
          ((queryDistinctKeys exampleIdx3.gramSize
            (exampleIdx3.normalizer [104, 101, 108, 108, 111])).map
            fun k => (mapLookup exampleIdx3.bitmaps k).getD ∅))) ∧
      exampleIdx3.Search [120, 121, 122] = [] := by
  refine ⟨⟨by decide, by decide, ?_⟩, ?_⟩
  · exact (Search_intersection exampleIdx3 _ (by decide) (by decide)).2.1 (by decide)
  · exact (Search_intersection exampleIdx3 _ (by decide) (by decide)).1 (by decide)

theorem searchIterate_spec (rest : List Bitmap) :
    ∀ (docs : List Nat) (lim : Nat),
      searchIterate docs rest lim =
        (docs.filter fun d => rest.all fun bm => decide (d ∈ bm)).take lim := by
  intro docs
  induction docs with
  | nil => intro lim; simp [searchIterate]
  | cons d ds ih =>
    intro lim
    unfold searchIterate
    by_cases hl : lim = 0
    · subst hl
      simp
    · rw [if_neg hl]
      obtain ⟨n, rfl⟩ := Nat.exists_eq_succ_of_ne_zero hl
      by_cases hp : (rest.all fun bm => decide (d ∈ bm)) = true
      · rw [if_pos hp, ih]
        simp [List.filter_cons, hp]
      · rw [if_neg hp, ih]
        simp [List.filter_cons, hp]

theorem Search_short (idx : Index) (query : GoStr)
    (hlen : (idx.normalizer query).length < idx.gramSize) : idx.Search query = [] := by
  unfold Index.Search
  dsimp only
  rw [if_pos hlen]

theorem SearchWithLimit_step (idx : Index) (query : GoStr) (limit : Int)
    (bms : List Bitmap) (hlim : ¬ limit ≤ 0)
    (hlen : ¬ (idx.normalizer query).length < idx.gramSize)
    (h : collectBitmaps idx.bitmaps
      (queryDistinctKeys idx.gramSize (idx.normalizer query)) = some bms) :
    idx.SearchWithLimit query limit =
      (match sortBitmapsByCardinality bms with
       | [] => []
       | smallest :: rest =>
         let results := searchIterate (bmToArray smallest) rest limit.toNat
         if results = [] then [] else results) := by
  unfold Index.SearchWithLimit
  dsimp only
  rw [if_neg hlim, if_neg hlen, h]

theorem SearchWithLimit_none (idx : Index) (query : GoStr) (limit : Int)
    (h : collectBitmaps idx.bitmaps
      (queryDistinctKeys idx.gramSize (idx.normalizer query)) = none) :
    idx.SearchWithLimit query limit = [] := by
  unfold Index.SearchWithLimit
  dsimp only
  split
  · rfl
  · split
    · rfl
    · rw [h]

theorem searchCombine_eq (bms : List Bitmap) (hne : bms ≠ []) :
    searchCombine bms = bmToArray (fastAnd (sortBitmapsByCardinality bms)) := by
  match bms, hne with
  | [bm], _ => rfl
  | bm1 :: bm2 :: rest, _ =>
    show (if fastAnd (sortBitmapsByCardinality (bm1 :: bm2 :: rest)) = ∅ then []
      else bmToArray (fastAnd (sortBitmapsByCardinality (bm1 :: bm2 :: rest)))) = _
    split
    · rename_i hres
      rw [hres]
      simp [bmToArray]
    · rfl

/-- Claim C7: for every query and every limit, `SearchWithLimit` returns
empty when `limit ≤ 0` and otherwise the first `min(limit, |Search|)`
documents of `Search` — i.e. it always equals
`(Search query).take limit.toNat`, the ascending prefix of the full
intersection. -/
theorem SearchWithLimit_take (idx : Index) (query : GoStr) (limit : Int)
    (hg1 : 1 ≤ idx.gramSize) :
    idx.SearchWithLimit query limit = (idx.Search query).take limit.toNat := by
  by_cases hlim : limit ≤ 0
  · rw [show idx.SearchWithLimit query limit = [] by
      unfold Index.SearchWithLimit; dsimp only; rw [if_pos hlim]]
    rw [Int.toNat_of_nonpos hlim, List.take_zero]
  · by_cases hlen : (idx.normalizer query).length < idx.gramSize
    · rw [Search_short idx query hlen, List.take_nil]
      unfold Index.SearchWithLimit
      dsimp only
      rw [if_neg hlim, if_pos hlen]
    · cases hc : collectBitmaps idx.bitmaps
          (queryDistinctKeys idx.gramSize (idx.normalizer query)) with
      | none =>
        rw [SearchWithLimit_none idx query limit hc, Search_absent idx query hc,
          List.take_nil]
      | some bms =>
        obtain ⟨hchar, -⟩ := collectBitmaps_ok idx.bitmaps _ bms hc
        have hne : bms ≠ [] := by
          rw [hchar]
          simp only [ne_eq, List.map_eq_nil_iff]
          exact queryDistinctKeys_ne_nil _ _ hg1 (by omega)
        have hsortne : sortBitmapsByCardinality bms ≠ [] := by
          intro hcontra
          have hp := List.perm_insertionSort (fun a b : Bitmap => a.card < b.card) bms
          rw [show List.insertionSort (fun a b : Bitmap => a.card < b.card) bms
            = sortBitmapsByCardinality bms from rfl, hcontra] at hp
          exact hne (List.Perm.eq_nil hp.symm)
        rw [SearchWithLimit_step idx query limit bms hlim hlen hc,
          Search_step idx query bms hlen hc, searchCombine_eq bms hne]
        cases hs : sortBitmapsByCardinality bms with
        | nil => exact absurd hs hsortne
        | cons smallest rest =>
          show (let results := searchIterate (bmToArray smallest) rest limit.toNat
            if results = [] then [] else results) = _
          rw [searchIterate_spec rest (bmToArray smallest) limit.toNat,
            bmToArray_filter_fastAnd smallest rest]
          dsimp only
          split
          · rename_i hres
            rw [← hres]
          · rfl

/-- Witness for C7 on the three-document example index: the limited
search returns the front of the full search. -/
theorem SearchWithLimit_take_witness :
    exampleIdx3.SearchWithLimit [104, 101, 108, 108, 111] 1 =
      (exampleIdx3.Search [104, 101, 108, 108, 111]).take (1 : Int).toNat :=
  SearchWithLimit_take exampleIdx3 _ 1 (by decide)

/-! ### C2: the batch build equals the serial build

The comparison is at content level (`mapLookup`), which is the
observable state of a Go map independently of iteration order. -/

theorem mapLookup_mapAddDoc (m : List (Nat × Bitmap)) (key d k : Nat) :
    mapLookup (mapAddDoc m key d) k =
      if k = key then some (insert d ((mapLookup m key).getD ∅)) else mapLookup m k := by
  induction m with
  | nil =>
    by_cases h : k = key
    · subst h; simp [mapAddDoc, mapLookup]
    · simp [mapAddDoc, mapLookup, h, Ne.symm h]
  | cons e rest ih =>
    obtain ⟨k0, bm⟩ := e
    by_cases h0 : k0 = key
    · subst h0
      simp only [mapAddDoc, if_pos rfl, mapLookup]
      by_cases h : k0 = k
      · subst h; simp
      · simp only [mapLookup, if_neg h]
        rw [if_neg (fun hh : k = k0 => h hh.symm)]
    · simp only [mapAddDoc, if_neg h0, mapLookup, if_neg h0]
      by_cases h : k0 = k
      · subst h
        rw [if_neg (fun hh : k0 = key => h0 hh), if_pos rfl, if_pos rfl]
      · rw [if_neg h, if_neg h, ih]

theorem mapLookup_mapInsertOr (m : List (Nat × Bitmap)) (key k : Nat) (b : Bitmap) :
    mapLookup (mapInsertOr m key b) k =
      if k = key then some ((mapLookup m key).getD ∅ ∪ b) else mapLookup m k := by
  induction m with
  | nil =>
    by_cases h : k = key
    · subst h; simp [mapInsertOr, mapLookup]
    · simp [mapInsertOr, mapLookup, h, Ne.symm h]
  | cons e rest ih =>
    obtain ⟨k0, bm⟩ := e
    by_cases h0 : k0 = key
    · subst h0
      simp only [mapInsertOr, if_pos rfl, mapLookup]
      by_cases h : k0 = k
      · subst h; simp
      · simp only [mapLookup, if_neg h]
        rw [if_neg (fun hh : k = k0 => h hh.symm)]
    · simp only [mapInsertOr, if_neg h0, mapLookup, if_neg h0]
      by_cases h : k0 = k
      · subst h
        rw [if_neg (fun hh : k0 = key => h0 hh), if_pos rfl, if_pos rfl]
      · rw [if_neg h, if_neg h, ih]

theorem mapLookup_foldl_mapAddDoc (keys : List Nat) (d : Nat) :
    ∀ (m : List (Nat × Bitmap)) (k : Nat),
    mapLookup (keys.foldl (fun m key => mapAddDoc m key d) m) k =
      if k ∈ keys then some (insert d ((mapLookup m k).getD ∅)) else mapLookup m k := by
  induction keys with
  | nil => intro m k; simp
  | cons key keys ih =>
    intro m k
    simp only [List.foldl_cons]
    rw [ih, mapLookup_mapAddDoc]
    by_cases hk : k = key
    · subst hk
      by_cases hmem : k ∈ keys <;>
        simp [hmem, Finset.insert_idem]
    · rw [if_neg hk]
      simp [List.mem_cons, hk]

theorem mapLookup_postRuneKeys_aux (d k : Nat) (ks : List Nat) :
    ∀ (seen : List Nat) (m : List (Nat × Bitmap)),
    mapLookup ((ks.foldl (fun acc key =>
        if containsKey acc.1 key then acc else (acc.1 ++ [key], mapAddDoc acc.2 key d))
      (seen, m)).2) k =
      if k ∈ ks ∧ containsKey seen k = false
      then some (insert d ((mapLookup m k).getD ∅)) else mapLookup m k := by
  induction ks with
  | nil => intro seen m; simp
  | cons key ks ih =>
    intro seen m
    simp only [List.foldl_cons]
    by_cases hc : containsKey seen key = true
    · rw [if_pos hc, ih]
      by_cases hk : k = key
      · subst hk
        simp [hc]
      · simp [List.mem_cons, hk]
    · rw [if_neg hc, ih, mapLookup_mapAddDoc]
      by_cases hk : k = key
      · subst hk
        have h1 : containsKey (seen ++ [k]) k = true := by
          simp [containsKey]
        have h2 : containsKey seen k = false := by
          simpa using hc
        simp [h1, h2]
      · have h1 : containsKey (seen ++ [key]) k = containsKey seen k := by
          simp [containsKey, List.any_append]
          exact fun hh => absurd hh.symm hk
        rw [if_neg hk, h1]
        simp [List.mem_cons, hk]

theorem mapLookup_postRuneKeys (gram d : Nat) (runes : GoStr)
    (m : List (Nat × Bitmap)) (k : Nat) :
    mapLookup (postRuneKeys gram d runes m) k =
      if k ∈ (ngramWindows gram runes).map runeNgramKey
      then some (insert d ((mapLookup m k).getD ∅)) else mapLookup m k := by
  unfold postRuneKeys
  rw [mapLookup_postRuneKeys_aux]
  simp [containsKey]

theorem mapLookup_processDocUnicode (gram : Nat) (normalizer : GoStr → GoStr)
    (m : List (Nat × Bitmap)) (doc : GoDoc) (k : Nat) :
    mapLookup (processDocUnicode gram normalizer m doc) k =
      if k ∈ docRuneKeys gram normalizer doc
      then some (insert doc.id ((mapLookup m k).getD ∅)) else mapLookup m k := by
  simp only [processDocUnicode, docRuneKeys]
  by_cases hlen : (normalizer doc.text).length < gram
  · simp [hlen]
  · simp only [if_neg hlen]
    exact mapLookup_postRuneKeys gram doc.id (normalizer doc.text) m k

theorem mapLookup_processChunkDoc (idx : Index) (m : List (Nat × Bitmap))
    (doc : GoDoc) (k : Nat) :
    mapLookup (processChunkDoc idx m doc) k =
      if k ∈ docKeyList idx doc
      then some (insert doc.id ((mapLookup m k).getD ∅)) else mapLookup m k := by
  unfold processChunkDoc docKeyList
  by_cases hfp : idx.useASCIFastPath = true
  · simp only [hfp, if_true]
    cases hn : normalizeAndKeyASCII doc.text idx.gramSize with
    | some keys => exact mapLookup_foldl_mapAddDoc keys doc.id m k
    | none => exact mapLookup_processDocUnicode idx.gramSize idx.normalizer m doc k
  · simp only [hfp, if_false, Bool.false_eq_true]
    exact mapLookup_processDocUnicode idx.gramSize idx.normalizer m doc k

theorem oPlus_none_left (o : Option Bitmap) : oPlus none o = o := by
  cases o <;> simp [oPlus]

theorem oPlus_assoc (a b c : Option Bitmap) :
    oPlus (oPlus a b) c = oPlus a (oPlus b c) := by
  cases b <;> cases c <;> simp [oPlus, Finset.union_assoc]

theorem oPlus_comm (a b : Option Bitmap) : oPlus a b = oPlus b a := by
  cases a <;> cases b <;> simp [oPlus, Finset.union_comm]

theorem processChunkDoc_oPlus (idx : Index) (m : List (Nat × Bitmap))
    (doc : GoDoc) (k : Nat) :
    mapLookup (processChunkDoc idx m doc) k =
      oPlus (mapLookup m k) (mapLookup (processChunkDoc idx [] doc) k) := by
  rw [mapLookup_processChunkDoc, mapLookup_processChunkDoc]
  by_cases hmem : k ∈ docKeyList idx doc
  · simp [hmem, oPlus, mapLookup]
    rw [Finset.union_comm, ← Finset.insert_eq]
  · simp [hmem, oPlus, mapLookup]

theorem foldl_oPlus_init (l : List (Option Bitmap)) :
    ∀ o, l.foldl oPlus o = oPlus o (bigPlus l) := by
  induction l with
  | nil => intro o; rfl
  | cons x l ih =>
    intro o
    show l.foldl oPlus (oPlus o x) = oPlus o (l.foldl oPlus (oPlus none x))
    rw [ih, ih (oPlus none x), oPlus_none_left, oPlus_assoc]

theorem bigPlus_append (l1 l2 : List (Option Bitmap)) :
    bigPlus (l1 ++ l2) = oPlus (bigPlus l1) (bigPlus l2) := by
  show (l1 ++ l2).foldl oPlus none = _
  rw [List.foldl_append]
  exact foldl_oPlus_init l2 _

theorem bigPlus_zipWith (xs : List (Option Bitmap)) :
    ∀ ys, xs.length = ys.length →
    bigPlus (List.zipWith oPlus xs ys) = oPlus (bigPlus xs) (bigPlus ys) := by
  induction xs with
  | nil =>
    intro ys h
    cases ys with
    | nil => rfl
    | cons y ys => simp at h
  | cons x xs ih =>
    intro ys h
    cases ys with
    | nil => simp at h
    | cons y ys =>
      show (List.zipWith oPlus xs ys).foldl oPlus (oPlus none (oPlus x y)) = _
      rw [foldl_oPlus_init, oPlus_none_left, ih ys (by simpa using h)]
      show _ = oPlus (xs.foldl oPlus (oPlus none x)) (ys.foldl oPlus (oPlus none y))
      rw [foldl_oPlus_init, foldl_oPlus_init, oPlus_none_left, oPlus_none_left,
        oPlus_assoc, oPlus_assoc]
      congr 1
      rw [← oPlus_assoc, ← oPlus_assoc, oPlus_comm y]

theorem mapLookup_eq_none_of_not_mem (m : List (Nat × Bitmap)) (k : Nat)
    (h : k ∉ m.map Prod.fst) : mapLookup m k = none := by
  induction m with
  | nil => rfl
  | cons e rest ih =>
    obtain ⟨k0, b0⟩ := e
    simp only [List.map_cons, List.mem_cons] at h
    push_neg at h
    simp only [mapLookup, if_neg (fun hh : k0 = k => h.1 hh.symm)]
    exact ih h.2

theorem mapLookup_mergeTwoLocals (src : List (Nat × Bitmap)) :
    ∀ (dst : List (Nat × Bitmap)) (k : Nat), (src.map Prod.fst).Nodup →
    mapLookup (mergeTwoLocals dst src) k = oPlus (mapLookup dst k) (mapLookup src k) := by
  induction src with
  | nil => intro dst k _; rfl
  | cons e src ih =>
    obtain ⟨k0, b0⟩ := e
    intro dst k h
    simp only [List.map_cons, List.nodup_cons] at h
    show mapLookup (mergeTwoLocals (mapInsertOr dst k0 b0) src) k = _
    rw [ih _ k h.2, mapLookup_mapInsertOr]
    by_cases hk : k = k0
    · subst hk
      rw [if_pos rfl, mapLookup_eq_none_of_not_mem src k h.1]
      simp [mapLookup, oPlus]
    · rw [if_neg hk]
      simp only [mapLookup, if_neg (fun hh : k0 = k => hk hh.symm)]

theorem foldl_processChunkDoc_oPlus (idx : Index) (l : List GoDoc) :
    ∀ (m : List (Nat × Bitmap)) (k : Nat),
    mapLookup (l.foldl (processChunkDoc idx) m) k =
      oPlus (mapLookup m k) (mapLookup (l.foldl (processChunkDoc idx) []) k) := by
  induction l with
  | nil => intro m k; rfl
  | cons doc l ih =>
    intro m k
    simp only [List.foldl_cons]
    rw [ih (processChunkDoc idx m doc) k, ih (processChunkDoc idx [] doc) k,
      processChunkDoc_oPlus, oPlus_assoc]

theorem chunks_flatten {α : Type} (cs w : Nat) :
    ∀ (l : List α), l.length ≤ w * cs →
    ((List.range w).map (fun i => (l.drop (i * cs)).take cs)).flatten = l := by
  induction w with
  | zero =>
    intro l h
    simp only [Nat.zero_mul, Nat.le_zero, List.length_eq_zero] at h
    simp [h]
  | succ w ih =>
    intro l h
    rw [List.range_succ_eq_map]
    simp only [List.map_cons, List.map_map, List.flatten_cons, Nat.zero_mul,
      List.drop_zero]
    have hc : (List.range w).map ((fun i => (l.drop (i * cs)).take cs) ∘ Nat.succ)
        = (List.range w).map (fun i => ((l.drop cs).drop (i * cs)).take cs) := by
      apply List.map_congr_left
      intro i _
      simp only [Function.comp]
      rw [List.drop_drop]
      congr 1
      rw [Nat.succ_mul, Nat.add_comm]
    rw [hc, ih (l.drop cs) (by simp only [List.length_drop]; rw [Nat.succ_mul] at h; omega)]
    exact List.take_append_drop cs l

theorem chunkFold_spec (idx : Index) (chunkOf : Nat → List GoDoc) (k : Nat) :
    ∀ (t : Nat) (m : List (Nat × Bitmap)),
    mapLookup ((((List.range t).map chunkOf).flatten).foldl (processChunkDoc idx) m) k =
      oPlus (mapLookup m k)
        (bigPlus ((List.range t).map
          (fun i => mapLookup ((chunkOf i).foldl (processChunkDoc idx) []) k))) := by
  intro t
  induction t with
  | zero => intro m; rfl
  | succ t ih =>
    intro m
    rw [List.range_succ]
    simp only [List.map_append, List.flatten_append, List.foldl_append,
      List.map_cons, List.map_nil, List.flatten_cons, List.flatten_nil,
      List.append_nil]
    rw [foldl_processChunkDoc_oPlus idx (chunkOf t), ih m, oPlus_assoc,
      bigPlus_append]
    rw [show bigPlus [mapLookup ((chunkOf t).foldl (processChunkDoc idx) []) k]
        = oPlus none (mapLookup ((chunkOf t).foldl (processChunkDoc idx) []) k) from rfl,
      oPlus_none_left]

theorem mem_keys_mapAddDoc (m : List (Nat × Bitmap)) (key d a : Nat)
    (h : a ∈ (mapAddDoc m key d).map Prod.fst) : a = key ∨ a ∈ m.map Prod.fst := by
  induction m with
  | nil =>
    simp [mapAddDoc] at h
    exact Or.inl h
  | cons e rest ih =>
    obtain ⟨k0, b0⟩ := e
    by_cases h0 : k0 = key
    · subst h0
      simp only [mapAddDoc, if_pos rfl, List.map_cons, List.mem_cons] at h
      simpa using h
    · simp only [mapAddDoc, if_neg h0, List.map_cons, List.mem_cons] at h
      rcases h with h | h
      · simp [h]
      · rcases ih h with h | h
        · exact Or.inl h
        · simp [h]

theorem nodup_keys_mapAddDoc (m : List (Nat × Bitmap)) (key d : Nat)
    (h : (m.map Prod.fst).Nodup) : ((mapAddDoc m key d).map Prod.fst).Nodup := by
  induction m with
  | nil => simp [mapAddDoc]
  | cons e rest ih =>
    obtain ⟨k0, b0⟩ := e
    simp only [List.map_cons, List.nodup_cons] at h
    by_cases h0 : k0 = key
    · subst h0
      simp only [mapAddDoc, if_pos rfl, if_true, List.map_cons, List.nodup_cons]
      exact h
    · simp only [mapAddDoc, if_neg h0, List.map_cons, List.nodup_cons]
      refine ⟨fun hmem => ?_, ih h.2⟩
      rcases mem_keys_mapAddDoc rest key d k0 hmem with h1 | h1
      · exact h0 h1
      · exact h.1 h1

theorem mem_keys_mapInsertOr (m : List (Nat × Bitmap)) (key : Nat) (b : Bitmap)
    (a : Nat) (h : a ∈ (mapInsertOr m key b).map Prod.fst) :
    a = key ∨ a ∈ m.map Prod.fst := by
  induction m with
  | nil =>
    simp [mapInsertOr] at h
    exact Or.inl h
  | cons e rest ih =>
    obtain ⟨k0, b0⟩ := e
    by_cases h0 : k0 = key
    · subst h0
      simp only [mapInsertOr, if_pos rfl, List.map_cons, List.mem_cons] at h
      simpa using h
    · simp only [mapInsertOr, if_neg h0, List.map_cons, List.mem_cons] at h
      rcases h with h | h
      · simp [h]
      · rcases ih h with h | h
        · exact Or.inl h
        · simp [h]

theorem nodup_keys_mapInsertOr (m : List (Nat × Bitmap)) (key : Nat) (b : Bitmap)
    (h : (m.map Prod.fst).Nodup) : ((mapInsertOr m key b).map Prod.fst).Nodup := by
  induction m with
  | nil => simp [mapInsertOr]
  | cons e rest ih =>
    obtain ⟨k0, b0⟩ := e
    simp only [List.map_cons, List.nodup_cons] at h
    by_cases h0 : k0 = key
    · subst h0
      simp only [mapInsertOr, if_pos rfl, if_true, List.map_cons, List.nodup_cons]
      exact h
    · simp only [mapInsertOr, if_neg h0, List.map_cons, List.nodup_cons]
      refine ⟨fun hmem => ?_, ih h.2⟩
      rcases mem_keys_mapInsertOr rest key b k0 hmem with h1 | h1
      · exact h0 h1
      · exact h.1 h1

theorem nodup_keys_foldl_mapAddDoc (keys : List Nat) (d : Nat) :
    ∀ (m : List (Nat × Bitmap)), (m.map Prod.fst).Nodup →
    (((keys.foldl (fun m key => mapAddDoc m key d) m)).map Prod.fst).Nodup := by
  induction keys with
  | nil => intro m h; exact h
  | cons key keys ih =>
    intro m h
    exact ih (mapAddDoc m key d) (nodup_keys_mapAddDoc m key d h)

theorem nodup_keys_postRuneKeys_aux (d : Nat) (ks : List Nat) :
    ∀ (seen : List Nat) (m : List (Nat × Bitmap)), (m.map Prod.fst).Nodup →
    (((ks.foldl (fun acc key =>
        if containsKey acc.1 key then acc else (acc.1 ++ [key], mapAddDoc acc.2 key d))
      (seen, m)).2).map Prod.fst).Nodup := by
  induction ks with
  | nil => intro seen m h; exact h
  | cons key ks ih =>
    intro seen m h
    simp only [List.foldl_cons]
    by_cases hc : containsKey seen key = true
    · rw [if_pos hc]
      exact ih seen m h
    · rw [if_neg hc]
      exact ih (seen ++ [key]) (mapAddDoc m key d) (nodup_keys_mapAddDoc m key d h)

theorem nodup_keys_processChunkDoc (idx : Index) (m : List (Nat × Bitmap))
    (doc : GoDoc) (h : (m.map Prod.fst).Nodup) :
    ((processChunkDoc idx m doc).map Prod.fst).Nodup := by
  unfold processChunkDoc processDocUnicode postRuneKeys
  by_cases hfp : idx.useASCIFastPath = true
  · simp only [hfp, if_true]
    cases hn : normalizeAndKeyASCII doc.text idx.gramSize with
    | some keys => exact nodup_keys_foldl_mapAddDoc keys doc.id m h
    | none =>
      by_cases hlen : (idx.normalizer doc.text).length < idx.gramSize
      · simpa [hlen] using h
      · simp only [hlen, if_false]
        exact nodup_keys_postRuneKeys_aux doc.id _ [] m h
  · simp only [hfp, if_false, Bool.false_eq_true]
    by_cases hlen : (idx.normalizer doc.text).length < idx.gramSize
    · simpa [hlen] using h
    · simp only [hlen, if_false]
      exact nodup_keys_postRuneKeys_aux doc.id _ [] m h

theorem nodup_keys_foldl_processChunkDoc (idx : Index) (l : List GoDoc) :
    ∀ (m : List (Nat × Bitmap)), (m.map Prod.fst).Nodup →
    ((l.foldl (processChunkDoc idx) m).map Prod.fst).Nodup := by
  induction l with
  | nil => intro m h; exact h
  | cons doc l ih =>
    intro m h
    exact ih (processChunkDoc idx m doc) (nodup_keys_processChunkDoc idx m doc h)

theorem nodup_keys_processChunk (idx : Index) (docs : List GoDoc) (i cs : Nat) :
    ((processChunk idx docs i cs).map Prod.fst).Nodup := by
  unfold processChunk
  exact nodup_keys_foldl_processChunkDoc idx _ [] (by simp)

theorem nodup_keys_mergeTwoLocals (src : List (Nat × Bitmap)) :
    ∀ (dst : List (Nat × Bitmap)), (dst.map Prod.fst).Nodup →
    ((mergeTwoLocals dst src).map Prod.fst).Nodup := by
  induction src with
  | nil => intro dst h; exact h
  | cons e src ih =>
    intro dst h
    exact ih (mapInsertOr dst e.1 e.2) (nodup_keys_mapInsertOr dst e.1 e.2 h)

theorem mem_zipWith_merge (A : List (List (Nat × Bitmap))) :
    ∀ (B : List (List (Nat × Bitmap))) (ℓ : List (Nat × Bitmap)),
    ℓ ∈ List.zipWith mergeTwoLocals A B →
    ∃ a ∈ A, ∃ b ∈ B, ℓ = mergeTwoLocals a b := by
  induction A with
  | nil => intro B ℓ h; simp at h
  | cons a A ih =>
    intro B ℓ h
    cases B with
    | nil => simp at h
    | cons b B =>
      simp only [List.zipWith_cons_cons, List.mem_cons] at h
      rcases h with h | h
      · exact ⟨a, by simp, b, by simp, h⟩
      · obtain ⟨a', ha', b', hb', rfl⟩ := ih B ℓ h
        exact ⟨a', by simp [ha'], b', by simp [hb'], rfl⟩

theorem mergeStep_nodup (L : List (List (Nat × Bitmap)))
    (h : ∀ ℓ ∈ L, (ℓ.map Prod.fst).Nodup) :
    ∀ ℓ ∈ mergeStep L, (ℓ.map Prod.fst).Nodup := by
  intro ℓ hℓ
  simp only [mergeStep, List.mem_append] at hℓ
  rcases hℓ with hz | hm
  · obtain ⟨a, ha, b, hb, rfl⟩ := mem_zipWith_merge _ _ ℓ hz
    exact nodup_keys_mergeTwoLocals b a (h a (List.mem_of_mem_take ha))
  · exact h ℓ (List.mem_of_mem_take (List.mem_of_mem_drop hm))

theorem map_lookup_zipWith (k : Nat) (A : List (List (Nat × Bitmap))) :
    ∀ (B : List (List (Nat × Bitmap))), (∀ b ∈ B, (b.map Prod.fst).Nodup) →
    (List.zipWith mergeTwoLocals A B).map (fun ℓ => mapLookup ℓ k) =
      List.zipWith oPlus (A.map (fun ℓ => mapLookup ℓ k))
        (B.map (fun ℓ => mapLookup ℓ k)) := by
  induction A with
  | nil => intro B h; simp
  | cons a A ih =>
    intro B h
    cases B with
    | nil => simp
    | cons b B =>
      simp only [List.zipWith_cons_cons, List.map_cons]
      refine congrArg₂ List.cons ?_ (ih B (fun b' hb' => h b' (by simp [hb'])))
      exact mapLookup_mergeTwoLocals b a k (h b (by simp))

theorem bigPlus_mergeStep (L : List (List (Nat × Bitmap))) (k : Nat)
    (h : ∀ ℓ ∈ L, (ℓ.map Prod.fst).Nodup) :
    bigPlus ((mergeStep L).map (fun ℓ => mapLookup ℓ k)) =
      bigPlus (L.map (fun ℓ => mapLookup ℓ k)) := by
  have hsplit : L.take (L.length / 2) ++ (L.take ((L.length + 1) / 2)).drop (L.length / 2)
      ++ L.drop ((L.length + 1) / 2) = L := by
    rw [show L.take (L.length / 2)
        = (L.take ((L.length + 1) / 2)).take (L.length / 2) by
      rw [List.take_take]
      congr 1
      omega]
    rw [List.take_append_drop, List.take_append_drop]
  have hBnodup : ∀ b ∈ L.drop ((L.length + 1) / 2), (b.map Prod.fst).Nodup :=
    fun b hb => h b (List.mem_of_mem_drop hb)
  have hlenAB : (L.take (L.length / 2)).length = (L.drop ((L.length + 1) / 2)).length := by
    simp only [List.length_take, List.length_drop]
    omega
  simp only [mergeStep, List.map_append]
  rw [map_lookup_zipWith k _ _ hBnodup, bigPlus_append,
    bigPlus_zipWith _ _ (by simpa using hlenAB)]
  conv_rhs => rw [← hsplit]
  simp only [List.map_append]
  rw [bigPlus_append, bigPlus_append, oPlus_assoc, oPlus_assoc]
  congr 1
  rw [oPlus_comm]

theorem mergeRounds_spec (k : Nat) : ∀ (n : Nat) (L : List (List (Nat × Bitmap))),
    L.length ≤ n → (∀ ℓ ∈ L, (ℓ.map Prod.fst).Nodup) →
    ((mergeRounds L).map Prod.fst).Nodup ∧
    mapLookup (mergeRounds L) k = bigPlus (L.map (fun ℓ => mapLookup ℓ k)) := by
  intro n
  induction n with
  | zero =>
    intro L hL h
    have hnil : L = [] := List.eq_nil_of_length_eq_zero (Nat.le_zero.mp hL)
    subst hnil
    rw [mergeRounds.eq_def]
    exact ⟨by simp, rfl⟩
  | succ n ih =>
    intro L hL h
    rw [mergeRounds.eq_def]
    by_cases hlen : L.length ≤ 1
    · rw [dif_pos hlen]
      cases L with
      | nil => exact ⟨by simp, rfl⟩
      | cons ℓ L' =>
        have hL' : L' = [] := by
          cases L' with
          | nil => rfl
          | cons x xs => simp at hlen
        subst hL'
        refine ⟨h ℓ (by simp), ?_⟩
        show mapLookup ℓ k = bigPlus [mapLookup ℓ k]
        rw [show bigPlus [mapLookup ℓ k] = oPlus none (mapLookup ℓ k) from rfl,
          oPlus_none_left]
    · rw [dif_neg hlen]
      have hstep : (mergeStep L).length < L.length := by
        simp only [mergeStep, List.length_append, List.length_zipWith,
          List.length_take, List.length_drop]
        omega
      obtain ⟨hnd, hlk⟩ := ih (mergeStep L) (by omega) (mergeStep_nodup L h)
      exact ⟨hnd, by rw [hlk, bigPlus_mergeStep L k h]⟩

theorem Add_bitmaps (idx : Index) (m : List (Nat × Bitmap)) (doc : GoDoc) :
    (Index.Add { idx with bitmaps := m } doc.id doc.text).bitmaps
      = processChunkDoc idx m doc := by
  simp only [Index.Add, processChunkDoc, Index.addRuneBasedNgrams, processDocUnicode]
  by_cases hfp : idx.useASCIFastPath = true
  · simp only [hfp, if_true]
    cases hn : normalizeAndKeyASCII doc.text idx.gramSize with
    | some keys => rfl
    | none =>
      by_cases hlen : (idx.normalizer doc.text).length < idx.gramSize <;>
        simp [hlen]
  · simp only [hfp, if_false, Bool.false_eq_true]
    by_cases hlen : (idx.normalizer doc.text).length < idx.gramSize <;>
      simp [hlen]

theorem Add_eq_update (idx : Index) (d : Nat) (t : GoStr) :
    idx.Add d t = { idx with bitmaps := (idx.Add d t).bitmaps } := by
  obtain ⟨g, nr, bs, fp⟩ := idx
  simp only [Index.Add, Index.addRuneBasedNgrams]
  cases fp
  · by_cases hlen : (nr t).length < g <;> simp [hlen]
  · cases hn : normalizeAndKeyASCII t g with
    | some keys => simp [hn]
    | none =>
      simp only [hn]
      by_cases hlen : (nr t).length < g <;> simp [hlen]

theorem addAll_bitmaps_aux (idx : Index) (docs : List GoDoc) :
    ∀ (m : List (Nat × Bitmap)),
    Index.addAll { idx with bitmaps := m } docs =
      { idx with bitmaps := docs.foldl (processChunkDoc idx) m } := by
  induction docs with
  | nil => intro m; rfl
  | cons doc docs ih =>
    intro m
    have h1 : Index.Add { idx with bitmaps := m } doc.id doc.text
        = { idx with bitmaps := processChunkDoc idx m doc } := by
      rw [Add_eq_update, Add_bitmaps]
    show Index.addAll (Index.Add { idx with bitmaps := m } doc.id doc.text) docs = _
    rw [h1]
    exact ih (processChunkDoc idx m doc)

theorem addAll_bitmaps (idx : Index) (docs : List GoDoc) :
    (idx.addAll docs).bitmaps = docs.foldl (processChunkDoc idx) idx.bitmaps := by
  have h := addAll_bitmaps_aux idx docs idx.bitmaps
  calc (idx.addAll docs).bitmaps
      = (Index.addAll { idx with bitmaps := idx.bitmaps } docs).bitmaps := rfl
    _ = docs.foldl (processChunkDoc idx) idx.bitmaps := by rw [h]

theorem clampWorkers_pos (numCPU workers docCount : Nat) (hcpu : 1 ≤ numCPU)
    (hdoc : 1 ≤ docCount) : 1 ≤ clampWorkers numCPU workers docCount := by
  simp only [clampWorkers]
  split_ifs <;> omega

theorem chunkSize_cover (len w : Nat) (hw : 1 ≤ w) :
    len ≤ w * ((len + w - 1) / w) := by
  rcases Nat.eq_zero_or_pos len with h0 | h0
  · simp [h0]
  · have he : len + w - 1 = (len - 1) + w := by omega
    rw [he, Nat.add_div_right _ hw, Nat.mul_add, Nat.mul_one]
    have h1 := Nat.div_add_mod (len - 1) w
    have h2 : (len - 1) % w < w := Nat.mod_lt _ hw
    omega

theorem addBatchN_step (idx : Index) (docs : List GoDoc) (workers numCPU : Nat)
    (h : docs.isEmpty = false) :
    idx.addBatchN docs workers numCPU =
      { idx with bitmaps := mergeIntoIndex idx.bitmaps (mergeRounds
        ((List.range (clampWorkers numCPU workers docs.length)).map fun i =>
          processChunk idx docs i
            ((docs.length + clampWorkers numCPU workers docs.length - 1) /
              clampWorkers numCPU workers docs.length))) } := by
  unfold Index.addBatchN
  simp [h]

theorem addBatchN_lookup (idx : Index) (docs : List GoDoc) (workers numCPU k : Nat)
    (hcpu : 1 ≤ numCPU) :
    mapLookup (idx.addBatchN docs workers numCPU).bitmaps k =
      mapLookup (idx.addAll docs).bitmaps k := by
  by_cases hemp : docs.isEmpty = true
  · have hnil : docs = [] := List.isEmpty_iff.mp hemp
    subst hnil
    rfl
  · have hemp' : docs.isEmpty = false := by simpa using hemp
    have hdoc : 1 ≤ docs.length := by
      cases docs with
      | nil => simp at hemp'
      | cons d ds => simp
    rw [addBatchN_step idx docs workers numCPU hemp']
    set w := clampWorkers numCPU workers docs.length with hw
    set cs := (docs.length + w - 1) / w with hcs
    have hw1 : 1 ≤ w := clampWorkers_pos numCPU workers docs.length hcpu hdoc
    have hcover : docs.length ≤ w * cs := chunkSize_cover docs.length w hw1
    have hlocnd : ∀ ℓ ∈ (List.range w).map
        (fun i => processChunk idx docs i cs), (ℓ.map Prod.fst).Nodup := by
      intro ℓ hℓ
      simp only [List.mem_map] at hℓ
      obtain ⟨i, _, rfl⟩ := hℓ
      exact nodup_keys_processChunk idx docs i cs
    obtain ⟨hnd, hlk⟩ := mergeRounds_spec k
      ((List.range w).map (fun i => processChunk idx docs i cs)).length
      ((List.range w).map (fun i => processChunk idx docs i cs)) le_rfl hlocnd
    show mapLookup (mergeIntoIndex idx.bitmaps (mergeRounds _)) k = _
    rw [show mergeIntoIndex idx.bitmaps (mergeRounds
        ((List.range w).map (fun i => processChunk idx docs i cs)))
      = mergeTwoLocals idx.bitmaps (mergeRounds
        ((List.range w).map (fun i => processChunk idx docs i cs))) from rfl]
    rw [mapLookup_mergeTwoLocals _ idx.bitmaps k hnd, hlk, List.map_map]
    rw [addAll_bitmaps]
    have hser : mapLookup (docs.foldl (processChunkDoc idx) idx.bitmaps) k
        = oPlus (mapLookup idx.bitmaps k)
          (bigPlus ((List.range w).map (fun i => mapLookup
            (((docs.drop (i * cs)).take cs).foldl (processChunkDoc idx) []) k))) := by
      conv_lhs => rw [← chunks_flatten cs w docs hcover]
      exact chunkFold_spec idx (fun i => (docs.drop (i * cs)).take cs) k w idx.bitmaps
    rw [hser]
    rfl

/-- Claim C2: for every starting index, document list, worker setting and
positive CPU count, the batch build (`addBatchN`, and `Flush`, which
forwards to it) leaves exactly the same key-to-document-set content as
serially `Add`-ing the same documents: the map lookup of every key
agrees, so the key sets and the per-key doc sets coincide. -/
theorem batch_flush_eq_serial (idx : Index) (docs : List GoDoc)
    (workers numCPU : Nat) (hcpu : 1 ≤ numCPU) (k : Nat) :
    mapLookup (idx.addBatchN docs workers numCPU).bitmaps k
        = mapLookup (idx.addAll docs).bitmaps k ∧
    mapLookup (idx.Flush docs numCPU).bitmaps k
        = mapLookup (idx.addAll docs).bitmaps k := by
  refine ⟨addBatchN_lookup idx docs workers numCPU k hcpu, ?_⟩
  unfold Index.Flush
  by_cases hemp : docs.isEmpty = true
  · have hnil : docs = [] := List.isEmpty_iff.mp hemp
    subst hnil
    rfl
  · have hemp' : docs.isEmpty = false := by simpa using hemp
    simp only [hemp', Bool.false_eq_true, if_false]
    exact addBatchN_lookup idx docs 0 numCPU k hcpu

/-- Witness for C2: building the three-document example batch with
`addBatchN`/`Flush` and serially gives the same posting set for the
key of the trigram "hel". -/
theorem batch_flush_eq_serial_witness :
    1 ≤ 2 ∧
    (mapLookup ((NewIndex 3).addBatchN exDocs 0 2).bitmaps 6841708
        = mapLookup ((NewIndex 3).addAll exDocs).bitmaps 6841708 ∧
      mapLookup ((NewIndex 3).Flush exDocs 2).bitmaps 6841708
        = mapLookup ((NewIndex 3).addAll exDocs).bitmaps 6841708) :=
  ⟨by decide, batch_flush_eq_serial (NewIndex 3) exDocs 0 2 (by decide) 6841708⟩

/-! ### C8: the heap partial sort

`container/heap`'s `down`, `Init`, `Fix` and `Pop` are verified over an
abstract asymmetric, negatively transitive boolean comparator, then
instantiated at `heapLess`. -/

theorem isDesc_self (i : Nat) : isDesc i i = true := by
  rw [isDesc.eq_def]
  simp

theorem isDesc_lt (i q : Nat) (h : q < i) : isDesc i q = false := by
  rw [isDesc.eq_def]
  simp only [if_pos (Nat.le_of_lt h)]
  simp [Nat.ne_of_lt h]

theorem isDesc_step (i q : Nat) (h : i < q) : isDesc i q = isDesc i ((q - 1) / 2) := by
  rw [isDesc.eq_def]
  simp [Nat.not_le.mpr h]

theorem isDesc_le (i q : Nat) (h : isDesc i q = true) : i ≤ q := by
  by_cases hq : q < i
  · rw [isDesc_lt i q hq] at h
    exact absurd h (by simp)
  · omega

theorem isDesc_child_left (i : Nat) : isDesc i (2 * i + 1) = true := by
  rw [isDesc_step i (2 * i + 1) (by omega)]
  have : (2 * i + 1 - 1) / 2 = i := by omega
  rw [this, isDesc_self]

theorem isDesc_child_right (i : Nat) : isDesc i (2 * i + 2) = true := by
  rw [isDesc_step i (2 * i + 2) (by omega)]
  have : (2 * i + 2 - 1) / 2 = i := by omega
  rw [this, isDesc_self]

theorem isDesc_trans (i j : Nat) (hij : isDesc i j = true) :
    ∀ q, isDesc j q = true → isDesc i q = true := by
  intro q
  induction q using Nat.strong_induction_on with
  | _ q ih =>
    intro hjq
    by_cases hq : q ≤ j
    · have : q = j := by
        have := isDesc_le j q hjq
        omega
      subst this
      exact hij
    · have hj : j < q := by omega
      have hi : i < q := by
        have := isDesc_le i j hij
        omega
      rw [isDesc_step j q hj] at hjq
      rw [isDesc_step i q hi]
      exact ih ((q - 1) / 2) (by omega) hjq

theorem isDesc_zero (q : Nat) : isDesc 0 q = true := by
  induction q using Nat.strong_induction_on with
  | _ q ih =>
    by_cases hq : q = 0
    · subst hq; exact isDesc_self 0
    · rw [isDesc_step 0 q (by omega)]
      exact ih ((q - 1) / 2) (by omega)

theorem length_hswap {β : Type} [Inhabited β] (l : List β) (i j : Nat) :
    (hswap l i j).length = l.length := by
  simp [hswap]

theorem getD_set_self {β : Type} [Inhabited β] (l : List β) (i : Nat) (x : β)
    (h : i < l.length) : (l.set i x).getD i default = x := by
  rw [List.getD_eq_getElem?_getD, List.getElem?_set_self (by simpa using h)]
  rfl

theorem getD_set_ne {β : Type} [Inhabited β] (l : List β) (i q : Nat) (x : β)
    (h : q ≠ i) : (l.set i x).getD q default = l.getD q default := by
  rw [List.getD_eq_getElem?_getD, List.getElem?_set_ne (fun hh => h hh.symm),
    ← List.getD_eq_getElem?_getD]

theorem getD_hswap_left {β : Type} [Inhabited β] (l : List β) (i j : Nat)
    (hi : i < l.length) (hj : j < l.length) :
    (hswap l i j).getD i default = l.getD j default := by
  by_cases hij : i = j
  · subst hij
    rw [hswap, getD_set_self _ _ _ (by simpa using hi)]
  · rw [hswap, getD_set_ne _ _ _ _ hij, getD_set_self _ _ _ hi]

theorem getD_hswap_right {β : Type} [Inhabited β] (l : List β) (i j : Nat)
    (hj : j < l.length) :
    (hswap l i j).getD j default = l.getD i default := by
  rw [hswap, getD_set_self _ _ _ (by simpa using hj)]

theorem getD_hswap_other {β : Type} [Inhabited β] (l : List β) (i j q : Nat)
    (hqi : q ≠ i) (hqj : q ≠ j) :
    (hswap l i j).getD q default = l.getD q default := by
  rw [hswap, getD_set_ne _ _ _ _ hqj, getD_set_ne _ _ _ _ hqi]

theorem cons_set_perm {β : Type} (t : List β) :
    ∀ (j : Nat) (c d : β), j < t.length →
    (t.getD j d :: t.set j c).Perm (c :: t) := by
  induction t with
  | nil => intro j c d h; simp at h
  | cons e t ih =>
    intro j c d h
    cases j with
    | zero =>
      simp only [List.getD_cons_zero, List.set_cons_zero]
      exact List.Perm.swap c e t
    | succ j =>
      simp only [List.getD_cons_succ, List.set_cons_succ]
      exact ((List.Perm.swap e (t.getD j d) (t.set j c)).trans
        ((ih j c d (by simpa using h)).cons e)).trans (List.Perm.swap c e t)

theorem hswap_perm_lt {β : Type} [Inhabited β] :
    ∀ (l : List β) (i j : Nat), i < j → i < l.length → j < l.length →
    (hswap l i j).Perm l := by
  intro l
  induction l with
  | nil => intro i j _ hi _; simp at hi
  | cons c t ih =>
    intro i j hij hi hj
    cases i with
    | zero =>
      cases j with
      | zero => omega
      | succ j =>
        show ((((c :: t).set 0 ((c :: t).getD (j + 1) default)).set (j + 1)
          ((c :: t).getD 0 default))).Perm (c :: t)
        simp only [List.getD_cons_succ, List.getD_cons_zero, List.set_cons_zero,
          List.set_cons_succ]
        exact cons_set_perm t j c default (by simpa using hj)
    | succ i =>
      cases j with
      | zero => omega
      | succ j =>
        show ((((c :: t).set (i + 1) ((c :: t).getD (j + 1) default)).set (j + 1)
          ((c :: t).getD (i + 1) default))).Perm (c :: t)
        simp only [List.getD_cons_succ, List.set_cons_succ]
        exact (ih i j (by omega) (by simpa using hi) (by simpa using hj)).cons c

theorem hswap_perm {β : Type} [Inhabited β] (l : List β) (i j : Nat)
    (hi : i < l.length) (hj : j < l.length) : (hswap l i j).Perm l := by
  rcases Nat.lt_trichotomy i j with hij | hij | hij
  · exact hswap_perm_lt l i j hij hi hj
  · subst hij
    have heq : hswap l i i = l.set i (l.getD i default) := by
      simp [hswap]
    rw [heq]
    have h1 := cons_set_perm l i (l.getD i default) default hi
    exact (List.perm_cons _).mp h1
  · have heq : hswap l i j = hswap l j i := by
      by_cases hij' : i = j
      · subst hij'; rfl
      · rw [hswap, hswap, List.set_comm _ _ _ hij']
    rw [heq]
    exact hswap_perm_lt l j i hij hj hi

theorem less_irrefl {β : Type} (less : β → β → Bool)
    (hasymm : ∀ a b, less a b = true → less b a = false) (a : β) :
    less a a = false := by
  cases hb : less a a with
  | false => rfl
  | true => exact hb ▸ hasymm a a hb

theorem less_trans {β : Type} (less : β → β → Bool)
    (hasymm : ∀ a b, less a b = true → less b a = false)
    (hnt : ∀ a b c, less a b = false → less b c = false → less a c = false)
    (a b c : β) (h1 : less a b = true) (h2 : less b c = true) :
    less a c = true := by
  by_cases h : less a c = true
  · exact h
  · have h3 : less a c = false := by simpa using h
    have h5 : less b c = false := hnt b a c (hasymm a b h1) h3
    rw [h5] at h2
    simp at h2

theorem isDesc_child (j p c : Nat) (hc : c = 2 * p + 1 ∨ c = 2 * p + 2)
    (hcj : c ≠ j) (hp : isDesc j p = false) : isDesc j c = false := by
  by_cases hlt : c < j
  · exact isDesc_lt j c hlt
  · have hgt : j < c := by omega
    rw [isDesc_step j c hgt]
    have hparent : (c - 1) / 2 = p := by omega
    rw [hparent]
    exact hp

theorem heap_desc_not_lt {β : Type} [Inhabited β] (less : β → β → Bool)
    (hasymm : ∀ a b, less a b = true → less b a = false)
    (hnt : ∀ a b c, less a b = false → less b c = false → less a c = false)
    (l : List β) (n j : Nat)
    (hp : ∀ p c, c < n → (c = 2 * p + 1 ∨ c = 2 * p + 2) → j ≤ p →
      less (l.getD c default) (l.getD p default) = false) :
    ∀ q, q < n → isDesc j q = true →
    less (l.getD q default) (l.getD j default) = false := by
  intro q
  induction q using Nat.strong_induction_on with
  | _ q ih =>
    intro hq hdesc
    by_cases hqj : q = j
    · subst hqj
      exact less_irrefl less hasymm _
    · have hgt : j < q := lt_of_le_of_ne (isDesc_le j q hdesc) (Ne.symm hqj)
      rw [isDesc_step j q hgt] at hdesc
      have hrel : q = 2 * ((q - 1) / 2) + 1 ∨ q = 2 * ((q - 1) / 2) + 2 := by omega
      have hple : j ≤ (q - 1) / 2 := isDesc_le j _ hdesc
      have h1 : less (l.getD q default) (l.getD ((q - 1) / 2) default) = false :=
        hp _ q hq hrel hple
      have h2 : less (l.getD ((q - 1) / 2) default) (l.getD j default) = false :=
        ih _ (by omega) (by omega) hdesc
      exact hnt _ _ _ h1 h2

theorem downAux_fuel {β : Type} [Inhabited β] (less : β → β → Bool) (n : Nat) :
    ∀ (f1 : Nat) (f2 : Nat) (l : List β) (i : Nat), n - i ≤ f1 → n - i ≤ f2 →
    downAux less f1 l i n = downAux less f2 l i n := by
  intro f1
  induction f1 with
  | zero =>
    intro f2 l i hf1 hf2
    cases f2 with
    | zero => rfl
    | succ f2 =>
      show (l, i) = downAux less (f2 + 1) l i n
      simp only [downAux]
      rw [if_neg (by omega)]
  | succ f1 ih =>
    intro f2 l i hf1 hf2
    cases f2 with
    | zero =>
      show downAux less (f1 + 1) l i n = (l, i)
      simp only [downAux]
      rw [if_neg (by omega)]
    | succ f2 =>
      simp only [downAux]
      by_cases hj : 2 * i + 1 < n
      · rw [if_pos hj, if_pos hj]
        by_cases h2 : 2 * i + 1 + 1 < n ∧
            less (l.getD (2 * i + 1 + 1) default) (l.getD (2 * i + 1) default) = true
        · rw [if_pos h2, if_pos h2]
          by_cases hb : less (l.getD (2 * i + 1 + 1) default) (l.getD i default) = true
          · rw [if_pos hb, if_pos hb]
            exact ih f2 (hswap l i (2 * i + 1 + 1)) (2 * i + 1 + 1)
              (by omega) (by omega)
          · rw [if_neg hb, if_neg hb]
        · rw [if_neg h2, if_neg h2]
          by_cases hb : less (l.getD (2 * i + 1) default) (l.getD i default) = true
          · rw [if_pos hb, if_pos hb]
            exact ih f2 (hswap l i (2 * i + 1)) (2 * i + 1) (by omega) (by omega)
          · rw [if_neg hb, if_neg hb]
      · rw [if_neg hj, if_neg hj]

theorem down_eq_leaf {β : Type} [Inhabited β] (less : β → β → Bool)
    (l : List β) (i n : Nat) (h : ¬ 2 * i + 1 < n) : down less l i n = (l, i) := by
  unfold down
  cases hf : n - i with
  | zero => rfl
  | succ f =>
    simp only [downAux]
    rw [if_neg h]

theorem down_eq_r_swap {β : Type} [Inhabited β] (less : β → β → Bool)
    (l : List β) (i n : Nat) (h1 : 2 * i + 1 < n)
    (h2 : 2 * i + 1 + 1 < n ∧
      less (l.getD (2 * i + 1 + 1) default) (l.getD (2 * i + 1) default) = true)
    (hb : less (l.getD (2 * i + 1 + 1) default) (l.getD i default) = true) :
    down less l i n = down less (hswap l i (2 * i + 1 + 1)) (2 * i + 1 + 1) n := by
  show downAux less (n - i) l i n
    = downAux less (n - (2 * i + 1 + 1)) (hswap l i (2 * i + 1 + 1)) (2 * i + 1 + 1) n
  have hf : n - i = (n - i - 1) + 1 := by omega
  rw [hf]
  simp only [downAux]
  rw [if_pos h1, if_pos h2, if_pos hb]
  exact downAux_fuel less n _ _ _ _ (by omega) (by omega)

theorem down_eq_r_stay {β : Type} [Inhabited β] (less : β → β → Bool)
    (l : List β) (i n : Nat) (h1 : 2 * i + 1 < n)
    (h2 : 2 * i + 1 + 1 < n ∧
      less (l.getD (2 * i + 1 + 1) default) (l.getD (2 * i + 1) default) = true)
    (hb : less (l.getD (2 * i + 1 + 1) default) (l.getD i default) = false) :
    down less l i n = (l, i) := by
  show downAux less (n - i) l i n = (l, i)
  have hf : n - i = (n - i - 1) + 1 := by omega
  rw [hf]
  simp only [downAux]
  rw [if_pos h1, if_pos h2, if_neg (by simp only [hb]; exact Bool.false_ne_true)]

theorem down_eq_l_swap {β : Type} [Inhabited β] (less : β → β → Bool)
    (l : List β) (i n : Nat) (h1 : 2 * i + 1 < n)
    (h2 : ¬ (2 * i + 1 + 1 < n ∧
      less (l.getD (2 * i + 1 + 1) default) (l.getD (2 * i + 1) default) = true))
    (hb : less (l.getD (2 * i + 1) default) (l.getD i default) = true) :
    down less l i n = down less (hswap l i (2 * i + 1)) (2 * i + 1) n := by
  show downAux less (n - i) l i n
    = downAux less (n - (2 * i + 1)) (hswap l i (2 * i + 1)) (2 * i + 1) n
  have hf : n - i = (n - i - 1) + 1 := by omega
  rw [hf]
  simp only [downAux]
  rw [if_pos h1, if_neg h2, if_pos hb]
  exact downAux_fuel less n _ _ _ _ (by omega) (by omega)

theorem down_eq_l_stay {β : Type} [Inhabited β] (less : β → β → Bool)
    (l : List β) (i n : Nat) (h1 : 2 * i + 1 < n)
    (h2 : ¬ (2 * i + 1 + 1 < n ∧
      less (l.getD (2 * i + 1 + 1) default) (l.getD (2 * i + 1) default) = true))
    (hb : less (l.getD (2 * i + 1) default) (l.getD i default) = false) :
    down less l i n = (l, i) := by
  show downAux less (n - i) l i n = (l, i)
  have hf : n - i = (n - i - 1) + 1 := by omega
  rw [hf]
  simp only [downAux]
  rw [if_pos h1, if_neg h2, if_neg (by simp only [hb]; exact Bool.false_ne_true)]

theorem down_spec {β : Type} [Inhabited β] (less : β → β → Bool)
    (hasymm : ∀ a b, less a b = true → less b a = false)
    (hnt : ∀ a b c, less a b = false → less b c = false → less a c = false)
    (n : Nat) :
    ∀ (fuel : Nat) (l : List β) (i : Nat), n - i ≤ fuel → n ≤ l.length →
    (∀ p c, c < n → (c = 2 * p + 1 ∨ c = 2 * p + 2) → i < p →
      less (l.getD c default) (l.getD p default) = false) →
    (down less l i n).1.length = l.length ∧
    (down less l i n).1.Perm l ∧
    (∀ q, isDesc i q = false → (down less l i n).1.getD q default = l.getD q default) ∧
    (∀ q, n ≤ q → (down less l i n).1.getD q default = l.getD q default) ∧
    (i < n → ∃ q, q < n ∧ isDesc i q = true ∧
      (down less l i n).1.getD i default = l.getD q default) ∧
    (∀ p c, c < n → (c = 2 * p + 1 ∨ c = 2 * p + 2) → i ≤ p →
      less ((down less l i n).1.getD c default)
        ((down less l i n).1.getD p default) = false) := by
  intro fuel
  induction fuel with
  | zero =>
    intro l i hfuel hn hpre
    have hleaf : ¬ 2 * i + 1 < n := by omega
    rw [down_eq_leaf less l i n hleaf]
    refine ⟨rfl, List.Perm.refl l, fun q _ => rfl, fun q _ => rfl,
      fun hin => ⟨i, hin, isDesc_self i, rfl⟩, ?_⟩
    intro p c hc hrel hip
    rcases Nat.eq_or_lt_of_le hip with hpi | hpi
    · exfalso; omega
    · exact hpre p c hc hrel hpi
  | succ fuel ih =>
    intro l i hfuel hn hpre
    by_cases h1 : 2 * i + 1 < n
    case neg =>
      rw [down_eq_leaf less l i n h1]
      refine ⟨rfl, List.Perm.refl l, fun q _ => rfl, fun q _ => rfl,
        fun hin => ⟨i, hin, isDesc_self i, rfl⟩, ?_⟩
      intro p c hc hrel hip
      rcases Nat.eq_or_lt_of_le hip with hpi | hpi
      · exfalso; omega
      · exact hpre p c hc hrel hpi
    case pos =>
    by_cases h2 : 2 * i + 1 + 1 < n ∧
        less (l.getD (2 * i + 1 + 1) default) (l.getD (2 * i + 1) default) = true
    · by_cases hb : less (l.getD (2 * i + 1 + 1) default) (l.getD i default) = true
      · -- swap with the right child 2i+2 and recurse there
        have hj : 2 * i + 1 + 1 < n := h2.1
        have hilen : i < l.length := by omega
        have hjlen : 2 * i + 1 + 1 < l.length := by omega
        rw [down_eq_r_swap less l i n h1 h2 hb]
        have hlen' : (hswap l i (2 * i + 1 + 1)).length = l.length := length_hswap l i _
        have hvi : (hswap l i (2 * i + 1 + 1)).getD i default
            = l.getD (2 * i + 1 + 1) default := getD_hswap_left l i _ hilen hjlen
        have hvj : (hswap l i (2 * i + 1 + 1)).getD (2 * i + 1 + 1) default
            = l.getD i default := getD_hswap_right l i _ hjlen
        have hvo : ∀ q, q ≠ i → q ≠ 2 * i + 1 + 1 →
            (hswap l i (2 * i + 1 + 1)).getD q default = l.getD q default :=
          fun q hqi hqj => getD_hswap_other l i _ q hqi hqj
        have hpre' : ∀ p c, c < n → (c = 2 * p + 1 ∨ c = 2 * p + 2) →
            2 * i + 1 + 1 < p →
            less ((hswap l i (2 * i + 1 + 1)).getD c default)
              ((hswap l i (2 * i + 1 + 1)).getD p default) = false := by
          intro p c hc hrel hp
          rw [hvo c (by rcases hrel with h | h <;> omega)
              (by rcases hrel with h | h <;> omega),
            hvo p (by omega) (by omega)]
          exact hpre p c hc hrel (by omega)
        obtain ⟨ih1, ih2, ih3, ih4, ih5, ih6⟩ :=
          ih (hswap l i (2 * i + 1 + 1)) (2 * i + 1 + 1) (by omega)
            (by rw [hlen']; exact hn) hpre'
        have hdesc_j : isDesc i (2 * i + 1 + 1) = true := by
          have h := isDesc_child_right i
          have e : 2 * i + 2 = 2 * i + 1 + 1 := by omega
          rw [e] at h
          exact h
        have hdesc_j_i : isDesc (2 * i + 1 + 1) i = false := isDesc_lt _ _ (by omega)
        have hri : (down less (hswap l i (2 * i + 1 + 1)) (2 * i + 1 + 1) n).1.getD i default
            = l.getD (2 * i + 1 + 1) default := by
          rw [ih3 i hdesc_j_i, hvi]
        refine ⟨?_, ?_, ?_, ?_, ?_, ?_⟩
        · rw [ih1, hlen']
        · exact ih2.trans (hswap_perm l i _ hilen hjlen)
        · intro q hq
          have hqi : q ≠ i := by
            intro he
            rw [he, isDesc_self] at hq
            simp at hq
          have hqj : isDesc (2 * i + 1 + 1) q = false := by
            by_cases hx : isDesc (2 * i + 1 + 1) q = true
            · rw [isDesc_trans i _ hdesc_j q hx] at hq
              simp at hq
            · simpa using hx
          have hqj' : q ≠ 2 * i + 1 + 1 := by
            intro he
            rw [he, isDesc_self] at hqj
            simp at hqj
          rw [ih3 q hqj, hvo q hqi hqj']
        · intro q hq
          rw [ih4 q hq, hvo q (by omega) (by omega)]
        · exact fun _ => ⟨2 * i + 1 + 1, hj, hdesc_j, hri⟩
        · intro p c hc hrel hip
          rcases Nat.lt_trichotomy p (2 * i + 1 + 1) with hpj | hpj | hpj
          · rcases Nat.eq_or_lt_of_le hip with hpi | hpi
            · -- p = i
              rcases hrel with hrel | hrel
              · -- c = 2p+1 = 2i+1 (the sibling)
                have hs_nd : isDesc (2 * i + 1 + 1) c = false := by
                  rw [hrel, ← hpi]
                  exact isDesc_lt _ _ (by omega)
                rw [ih3 c hs_nd, hvo c (by omega) (by omega), ← hpi, hri]
                rw [hrel, ← hpi]
                exact hasymm _ _ h2.2
              · -- c = 2p+2 = 2i+2 (the recursed child)
                have hc_eq : c = 2 * i + 1 + 1 := by omega
                rw [hc_eq, ← hpi, hri]
                obtain ⟨q, hqn, hqdesc, hqval⟩ := ih5 (by omega)
                rw [hqval]
                by_cases hq : q = 2 * i + 1 + 1
                · rw [hq] at hqval ⊢
                  rw [hvj]
                  exact hasymm _ _ hb
                · rw [hvo q (by have := isDesc_le _ _ hqdesc; omega) hq]
                  exact heap_desc_not_lt less hasymm hnt l n (2 * i + 1 + 1)
                    (fun p' c' hc' hrel' hp' => hpre p' c' hc' hrel' (by omega))
                    q hqn hqdesc
            · -- i < p < 2i+2: untouched pair
              have hp_nd : isDesc (2 * i + 1 + 1) p = false := isDesc_lt _ _ hpj
              have hc_ne : c ≠ 2 * i + 1 + 1 := by rcases hrel with h | h <;> omega
              have hc_nd : isDesc (2 * i + 1 + 1) c = false :=
                isDesc_child _ p c hrel hc_ne hp_nd
              rw [ih3 p hp_nd, ih3 c hc_nd, hvo p (by omega) (by omega),
                hvo c (by rcases hrel with h | h <;> omega) hc_ne]
              exact hpre p c hc hrel hpi
          · rw [hpj]
            rw [hpj] at hrel
            exact ih6 _ c hc hrel (le_refl _)
          · exact ih6 p c hc hrel (by omega)
      · -- right child not smaller than parent: leaf
        have hb' : less (l.getD (2 * i + 1 + 1) default) (l.getD i default) = false := by
          simpa using hb
        rw [down_eq_r_stay less l i n h1 h2 hb']
        refine ⟨rfl, List.Perm.refl l, fun q _ => rfl, fun q _ => rfl,
          fun hin => ⟨i, hin, isDesc_self i, rfl⟩, ?_⟩
        intro p c hc hrel hip
        rcases Nat.eq_or_lt_of_le hip with hpi | hpi
        · rcases hrel with hrel | hrel
          · -- c = 2i+1
            by_cases hcl : less (l.getD c default) (l.getD p default) = true
            · exfalso
              have h3 : less (l.getD (2 * i + 1 + 1) default) (l.getD i default) = true := by
                have e1 : c = 2 * i + 1 := by omega
                have e2 : p = i := hpi.symm
                rw [e1, e2] at hcl
                exact less_trans less hasymm hnt _ _ _ h2.2 hcl
              rw [h3] at hb'
              simp at hb'
            · simpa using hcl
          · have e1 : c = 2 * i + 1 + 1 := by omega
            have e2 : p = i := hpi.symm
            rw [e1, e2]
            exact hb'
        · exact hpre p c hc hrel hpi
    · by_cases hb : less (l.getD (2 * i + 1) default) (l.getD i default) = true
      · -- swap with the left child 2i+1 and recurse there
        have hilen : i < l.length := by omega
        have hjlen : 2 * i + 1 < l.length := by omega
        rw [down_eq_l_swap less l i n h1 h2 hb]
        have hlen' : (hswap l i (2 * i + 1)).length = l.length := length_hswap l i _
        have hvi : (hswap l i (2 * i + 1)).getD i default
            = l.getD (2 * i + 1) default := getD_hswap_left l i _ hilen hjlen
        have hvj : (hswap l i (2 * i + 1)).getD (2 * i + 1) default
            = l.getD i default := getD_hswap_right l i _ hjlen
        have hvo : ∀ q, q ≠ i → q ≠ 2 * i + 1 →
            (hswap l i (2 * i + 1)).getD q default = l.getD q default :=
          fun q hqi hqj => getD_hswap_other l i _ q hqi hqj
        have hpre' : ∀ p c, c < n → (c = 2 * p + 1 ∨ c = 2 * p + 2) →
            2 * i + 1 < p →
            less ((hswap l i (2 * i + 1)).getD c default)
              ((hswap l i (2 * i + 1)).getD p default) = false := by
          intro p c hc hrel hp
          rw [hvo c (by rcases hrel with h | h <;> omega)
              (by rcases hrel with h | h <;> omega),
            hvo p (by omega) (by omega)]
          exact hpre p c hc hrel (by omega)
        obtain ⟨ih1, ih2, ih3, ih4, ih5, ih6⟩ :=
          ih (hswap l i (2 * i + 1)) (2 * i + 1) (by omega)
            (by rw [hlen']; exact hn) hpre'
        have hdesc_j : isDesc i (2 * i + 1) = true := isDesc_child_left i
        have hdesc_j_i : isDesc (2 * i + 1) i = false := isDesc_lt _ _ (by omega)
        have hri : (down less (hswap l i (2 * i + 1)) (2 * i + 1) n).1.getD i default
            = l.getD (2 * i + 1) default := by
          rw [ih3 i hdesc_j_i, hvi]
        refine ⟨?_, ?_, ?_, ?_, ?_, ?_⟩
        · rw [ih1, hlen']
        · exact ih2.trans (hswap_perm l i _ hilen hjlen)
        · intro q hq
          have hqi : q ≠ i := by
            intro he
            rw [he, isDesc_self] at hq
            simp at hq
          have hqj : isDesc (2 * i + 1) q = false := by
            by_cases hx : isDesc (2 * i + 1) q = true
            · rw [isDesc_trans i _ hdesc_j q hx] at hq
              simp at hq
            · simpa using hx
          have hqj' : q ≠ 2 * i + 1 := by
            intro he
            rw [he, isDesc_self] at hqj
            simp at hqj
          rw [ih3 q hqj, hvo q hqi hqj']
        · intro q hq
          rw [ih4 q hq, hvo q (by omega) (by omega)]
        · exact fun _ => ⟨2 * i + 1, h1, hdesc_j, hri⟩
        · intro p c hc hrel hip
          rcases Nat.lt_trichotomy p (2 * i + 1) with hpj | hpj | hpj
          · rcases Nat.eq_or_lt_of_le hip with hpi | hpi
            · -- p = i
              rcases hrel with hrel | hrel
              · -- c = 2i+1: the recursed child
                have hc_eq : c = 2 * i + 1 := by omega
                rw [hc_eq, ← hpi, hri]
                obtain ⟨q, hqn, hqdesc, hqval⟩ := ih5 (by omega)
                rw [hqval]
                by_cases hq : q = 2 * i + 1
                · rw [hq, hvj]
                  exact hasymm _ _ hb
                · rw [hvo q (by have := isDesc_le _ _ hqdesc; omega) hq]
                  exact heap_desc_not_lt less hasymm hnt l n (2 * i + 1)
                    (fun p' c' hc' hrel' hp' => hpre p' c' hc' hrel' (by omega))
                    q hqn hqdesc
              · -- c = 2i+2: the sibling
                have hc_eq : c = 2 * i + 1 + 1 := by omega
                have hs_nd : isDesc (2 * i + 1) c = false := by
                  rw [hc_eq, isDesc_step _ _ (by omega)]
                  have e : (2 * i + 1 + 1 - 1) / 2 = i := by omega
                  rw [e]
                  exact isDesc_lt _ _ (by omega)
                rw [ih3 c hs_nd, hvo c (by omega) (by omega), ← hpi, hri]
                have hcn : 2 * i + 1 + 1 < n := by omega
                have hnl : less (l.getD (2 * i + 1 + 1) default)
                    (l.getD (2 * i + 1) default) = false := by
                  by_cases hx : less (l.getD (2 * i + 1 + 1) default)
                      (l.getD (2 * i + 1) default) = true
                  · exact absurd ⟨hcn, hx⟩ h2
                  · simpa using hx
                rw [hc_eq]
                exact hnl
            · -- i < p < 2i+1: untouched pair
              have hp_nd : isDesc (2 * i + 1) p = false := isDesc_lt _ _ hpj
              have hc_ne : c ≠ 2 * i + 1 := by rcases hrel with h | h <;> omega
              have hc_nd : isDesc (2 * i + 1) c = false :=
                isDesc_child _ p c hrel hc_ne hp_nd
              rw [ih3 p hp_nd, ih3 c hc_nd, hvo p (by omega) (by omega),
                hvo c (by rcases hrel with h | h <;> omega) hc_ne]
              exact hpre p c hc hrel hpi
          · rw [hpj]
            rw [hpj] at hrel
            exact ih6 _ c hc hrel (le_refl _)
          · exact ih6 p c hc hrel (by omega)
      · -- left child not smaller than parent: leaf
        have hb' : less (l.getD (2 * i + 1) default) (l.getD i default) = false := by
          simpa using hb
        rw [down_eq_l_stay less l i n h1 h2 hb']
        refine ⟨rfl, List.Perm.refl l, fun q _ => rfl, fun q _ => rfl,
          fun hin => ⟨i, hin, isDesc_self i, rfl⟩, ?_⟩
        intro p c hc hrel hip
        rcases Nat.eq_or_lt_of_le hip with hpi | hpi
        · rcases hrel with hrel | hrel
          · have e1 : c = 2 * i + 1 := by omega
            have e2 : p = i := hpi.symm
            rw [e1, e2]
            exact hb'
          · have e1 : c = 2 * i + 1 + 1 := by omega
            have e2 : p = i := hpi.symm
            have hcn : 2 * i + 1 + 1 < n := by omega
            have hnl : less (l.getD (2 * i + 1 + 1) default)
                (l.getD (2 * i + 1) default) = false := by
              by_cases hx : less (l.getD (2 * i + 1 + 1) default)
                  (l.getD (2 * i + 1) default) = true
              · exact absurd ⟨hcn, hx⟩ h2
              · simpa using hx
            rw [e1, e2]
            exact hnt _ _ _ hnl hb'
        · exact hpre p c hc hrel hpi

theorem heapInitAux_spec {β : Type} [Inhabited β] (less : β → β → Bool)
    (hasymm : ∀ a b, less a b = true → less b a = false)
    (hnt : ∀ a b c, less a b = false → less b c = false → less a c = false)
    (n : Nat) :
    ∀ (k : Nat) (l : List β), n ≤ l.length →
    (∀ p c, c < n → (c = 2 * p + 1 ∨ c = 2 * p + 2) → k ≤ p →
      less (l.getD c default) (l.getD p default) = false) →
    (heapInitAux less n k l).length = l.length ∧
    (heapInitAux less n k l).Perm l ∧
    IsHeap less (heapInitAux less n k l) n := by
  intro k
  induction k with
  | zero =>
    intro l hn hpre
    exact ⟨rfl, List.Perm.refl l, fun p c hc hrel => hpre p c hc hrel (Nat.zero_le p)⟩
  | succ k ihk =>
    intro l hn hpre
    obtain ⟨d1, d2, d3, d4, d5, d6⟩ :=
      down_spec less hasymm hnt n n l k (by omega) hn
        (fun p c hc hrel hp => hpre p c hc hrel (by omega))
    obtain ⟨e1, e2, e3⟩ := ihk (down less l k n).1 (by rw [d1]; exact hn)
      (fun p c hc hrel hp => d6 p c hc hrel hp)
    exact ⟨e1.trans d1, e2.trans d2, e3⟩

theorem heapInit_spec {β : Type} [Inhabited β] (less : β → β → Bool)
    (hasymm : ∀ a b, less a b = true → less b a = false)
    (hnt : ∀ a b c, less a b = false → less b c = false → less a c = false)
    (l : List β) (n : Nat) (hn : n ≤ l.length) :
    (heapInit less l n).length = l.length ∧
    (heapInit less l n).Perm l ∧
    IsHeap less (heapInit less l n) n := by
  apply heapInitAux_spec less hasymm hnt n (n / 2) l hn
  intro p c hc hrel hp
  exfalso
  omega

theorem up_zero {β : Type} [Inhabited β] (less : β → β → Bool) (l : List β) :
    up less l 0 = l := rfl

theorem heapFix_zero {β : Type} [Inhabited β] (less : β → β → Bool) (l : List β) :
    heapFix less l 0 = (down less l 0 l.length).1 := by
  unfold heapFix
  by_cases h : 0 < (down less l 0 l.length).2
  · simp [h]
  · simp [h, up_zero]

theorem getD_take {β : Type} [Inhabited β] (l : List β) (n q : Nat) (h : q < n) :
    (l.take n).getD q default = l.getD q default := by
  rw [List.getD_eq_getElem?_getD, List.getD_eq_getElem?_getD, List.getElem?_take,
    if_pos h]

theorem drop_last_eq {β : Type} [Inhabited β] :
    ∀ (n : Nat) (l : List β), l.length = n + 1 → l.drop n = [l.getD n default] := by
  intro n
  induction n with
  | zero =>
    intro l h
    cases l with
    | nil => simp at h
    | cons c t =>
      have ht : t = [] := by simpa using h
      subst ht
      simp
  | succ n ihn =>
    intro l h
    cases l with
    | nil => simp at h
    | cons c t =>
      simp only [List.drop_succ_cons, List.getD_cons_succ]
      exact ihn t (by simpa using h)

theorem getD_of_mem {β : Type} [Inhabited β] (l : List β) (x : β) (h : x ∈ l) :
    ∃ q, q < l.length ∧ l.getD q default = x := by
  obtain ⟨i, hi, he⟩ := List.mem_iff_getElem.mp h
  refine ⟨i, hi, ?_⟩
  rw [List.getD_eq_getElem?_getD, List.getElem?_eq_getElem hi]
  simpa using he

theorem heap_root_min {β : Type} [Inhabited β] (less : β → β → Bool)
    (hasymm : ∀ a b, less a b = true → less b a = false)
    (hnt : ∀ a b c, less a b = false → less b c = false → less a c = false)
    (l : List β) (hheap : IsHeap less l l.length) (x : β) (hx : x ∈ l) :
    less x (l.getD 0 default) = false := by
  obtain ⟨q, hq, hqe⟩ := getD_of_mem l x hx
  rw [← hqe]
  exact heap_desc_not_lt less hasymm hnt l l.length 0
    (fun p c hc hrel _ => hheap p c hc hrel) q hq (isDesc_zero q)

theorem heapPop_spec {β : Type} [Inhabited β] (less : β → β → Bool)
    (hasymm : ∀ a b, less a b = true → less b a = false)
    (hnt : ∀ a b c, less a b = false → less b c = false → less a c = false)
    (l : List β) (hpos : 0 < l.length) (hheap : IsHeap less l l.length) :
    (heapPop less l).1 = l.getD 0 default ∧
    (heapPop less l).2.length = l.length - 1 ∧
    ((heapPop less l).1 :: (heapPop less l).2).Perm l ∧
    IsHeap less (heapPop less l).2 (l.length - 1) := by
  have hl1len : (hswap l 0 (l.length - 1)).length = l.length := length_hswap l 0 _
  have hpre : ∀ p c, c < l.length - 1 → (c = 2 * p + 1 ∨ c = 2 * p + 2) → 0 < p →
      less ((hswap l 0 (l.length - 1)).getD c default)
        ((hswap l 0 (l.length - 1)).getD p default) = false := by
    intro p c hc hrel hp
    rw [getD_hswap_other l 0 _ c (by omega) (by omega),
      getD_hswap_other l 0 _ p (by omega) (by omega)]
    exact hheap p c (by omega) hrel
  obtain ⟨d1, d2, d3, d4, d5, d6⟩ :=
    down_spec less hasymm hnt (l.length - 1) (l.length - 1)
      (hswap l 0 (l.length - 1)) 0 (by omega) (by omega) hpre
  have hlast : (down less (hswap l 0 (l.length - 1)) 0 (l.length - 1)).1.getD
      (l.length - 1) default = l.getD 0 default := by
    rw [d4 (l.length - 1) (le_refl _), getD_hswap_right l 0 _ (by omega)]
  have hlen2 : (down less (hswap l 0 (l.length - 1)) 0 (l.length - 1)).1.length
      = l.length := by rw [d1, hl1len]
  refine ⟨hlast, ?_, ?_, ?_⟩
  · show ((down less (hswap l 0 (l.length - 1)) 0 (l.length - 1)).1.take
      (l.length - 1)).length = l.length - 1
    rw [List.length_take, hlen2]
    omega
  · show ((down less (hswap l 0 (l.length - 1)) 0 (l.length - 1)).1.getD
        (l.length - 1) default ::
      (down less (hswap l 0 (l.length - 1)) 0 (l.length - 1)).1.take
        (l.length - 1)).Perm l
    have hsplit : (down less (hswap l 0 (l.length - 1)) 0 (l.length - 1)).1
        = (down less (hswap l 0 (l.length - 1)) 0 (l.length - 1)).1.take (l.length - 1)
          ++ [(down less (hswap l 0 (l.length - 1)) 0 (l.length - 1)).1.getD
            (l.length - 1) default] := by
      conv_lhs => rw [← List.take_append_drop (l.length - 1)
        (down less (hswap l 0 (l.length - 1)) 0 (l.length - 1)).1]
      rw [drop_last_eq (l.length - 1) _ (by omega)]
    have hperm1 := (d2.trans (hswap_perm l 0 (l.length - 1) hpos (by omega)))
    refine (List.perm_append_singleton _ _).symm.trans ?_
    rw [← hsplit]
    exact hperm1
  · intro p c hc hrel
    show less (((down less (hswap l 0 (l.length - 1)) 0 (l.length - 1)).1.take
        (l.length - 1)).getD c default)
      (((down less (hswap l 0 (l.length - 1)) 0 (l.length - 1)).1.take
        (l.length - 1)).getD p default) = false
    rw [getD_take _ _ _ hc, getD_take _ _ _ (by rcases hrel with h | h <;> omega)]
    exact d6 p c hc hrel (Nat.zero_le p)

theorem popLoop_spec {β : Type} [Inhabited β] (less : β → β → Bool)
    (hasymm : ∀ a b, less a b = true → less b a = false)
    (hnt : ∀ a b c, less a b = false → less b c = false → less a c = false) :
    ∀ (k : Nat) (l : List β), l.length = k → IsHeap less l k →
    (popLoop less k l).Perm l ∧
    List.Pairwise (fun a b => less b a = false) (popLoop less k l) := by
  intro k
  induction k with
  | zero =>
    intro l hlen _
    have : l = [] := List.eq_nil_of_length_eq_zero hlen
    subst this
    exact ⟨List.Perm.refl _, List.Pairwise.nil⟩
  | succ k ihk =>
    intro l hlen hheap
    have hheap' : IsHeap less l l.length := by rw [hlen]; exact hheap
    obtain ⟨p1, p2, p3, p4⟩ := heapPop_spec less hasymm hnt l (by omega) hheap'
    have hrest : (heapPop less l).2.length = k := by omega
    obtain ⟨e1, e2⟩ := ihk (heapPop less l).2 hrest (by
      have := p4
      rw [hlen] at this
      simpa using this)
    constructor
    · show ((heapPop less l).1 :: popLoop less k (heapPop less l).2).Perm l
      exact ((e1.cons (heapPop less l).1).trans p3)
    · show List.Pairwise (fun a b => less b a = false)
        ((heapPop less l).1 :: popLoop less k (heapPop less l).2)
      refine List.Pairwise.cons ?_ e2
      intro b hb
      have hbmem : b ∈ l := by
        have h1 : b ∈ (heapPop less l).2 := e1.mem_iff.mp hb
        exact p3.mem_iff.mp (by simp [h1])
      rw [p1]
      exact heap_root_min less hasymm hnt l hheap' b hbmem

theorem heapLess_asymm {T : Type} [LinearOrder T] (asc : Bool)
    (a b : SortedResult T) (h : heapLess asc a b = true) :
    heapLess asc b a = false := by
  cases asc <;> simp [heapLess] at h ⊢ <;> exact le_of_lt h

theorem heapLess_negtrans {T : Type} [LinearOrder T] (asc : Bool)
    (a b c : SortedResult T) (h1 : heapLess asc a b = false)
    (h2 : heapLess asc b c = false) : heapLess asc a c = false := by
  cases asc <;> simp [heapLess] at h1 h2 ⊢
  · exact le_trans h2 h1
  · exact le_trans h1 h2

theorem colResults_append {T : Type} [Inhabited T] (values : List T)
    (pr : List Nat) (d : Nat) :
    colResults values (pr ++ [d]) = colResults values pr ++ [⟨d, getValue values d⟩] := by
  simp [colResults]

theorem getD_zero_mem {β : Type} [Inhabited β] (l : List β) (h : 0 < l.length) :
    l.getD 0 default ∈ l := by
  cases l with
  | nil => simp at h
  | cons c t => simp

theorem heapSortStep_eq_fill {T : Type} [LinearOrder T] [Inhabited T]
    (asc : Bool) (limit : Nat) (values : List T) (items : List (SortedResult T))
    (d : Nat) (h : items.length < limit) (h2 : items.length + 1 ≠ limit) :
    heapSortStep asc limit values items d
      = items ++ [(⟨d, getValue values d⟩ : SortedResult T)] := by
  unfold heapSortStep
  simp [h, h2]

theorem heapSortStep_eq_fillup {T : Type} [LinearOrder T] [Inhabited T]
    (asc : Bool) (limit : Nat) (values : List T) (items : List (SortedResult T))
    (d : Nat) (h : items.length < limit) (h2 : items.length + 1 = limit) :
    heapSortStep asc limit values items d =
      heapInit (heapLess asc) (items ++ [(⟨d, getValue values d⟩ : SortedResult T)])
        (items ++ [(⟨d, getValue values d⟩ : SortedResult T)]).length := by
  unfold heapSortStep
  simp [h, h2]

theorem heapSortStep_eq_replace {T : Type} [LinearOrder T] [Inhabited T]
    (asc : Bool) (limit : Nat) (values : List T) (items : List (SortedResult T))
    (d : Nat) (h : ¬ items.length < limit)
    (hbet : heapLess asc (items.getD 0 default)
      (⟨d, getValue values d⟩ : SortedResult T) = true) :
    heapSortStep asc limit values items d =
      heapFix (heapLess asc) (items.set 0 (⟨d, getValue values d⟩ : SortedResult T)) 0 := by
  cases asc <;>
  · unfold heapSortStep
    simp only [heapLess] at hbet
    simp at hbet
    simp [h, hbet]

theorem heapSortStep_eq_skip {T : Type} [LinearOrder T] [Inhabited T]
    (asc : Bool) (limit : Nat) (values : List T) (items : List (SortedResult T))
    (d : Nat) (h : ¬ items.length < limit)
    (hbet : heapLess asc (items.getD 0 default)
      (⟨d, getValue values d⟩ : SortedResult T) = false) :
    heapSortStep asc limit values items d = items := by
  cases asc <;>
  · unfold heapSortStep
    simp only [heapLess] at hbet
    simp at hbet
    simp [h, hbet]

theorem heapSortStep_inv {T : Type} [LinearOrder T] [Inhabited T]
    (asc : Bool) (limit : Nat) (values : List T) (hlim : 0 < limit)
    (processed : List Nat) (items dropped : List (SortedResult T)) (d : Nat)
    (hinv : SelInv asc limit values processed items dropped) :
    ∃ dropped', SelInv asc limit values (processed ++ [d])
      (heapSortStep asc limit values items d) dropped' := by
  obtain ⟨hphase, hperm, hdom⟩ := hinv
  by_cases hfill : items.length < limit
  · have hdrop : dropped = [] ∧ items = colResults values processed := by
      rcases hphase with ⟨he, _, hd⟩ | ⟨hlen, _⟩
      · exact ⟨hd, he⟩
      · omega
    by_cases h2 : items.length + 1 = limit
    · rw [heapSortStep_eq_fillup asc limit values items d hfill h2]
      obtain ⟨i1, i2, i3⟩ := heapInit_spec (heapLess asc) (heapLess_asymm asc)
        (heapLess_negtrans asc)
        (items ++ [(⟨d, getValue values d⟩ : SortedResult T)])
        (items ++ [(⟨d, getValue values d⟩ : SortedResult T)]).length (le_refl _)
      have e : (items ++ [(⟨d, getValue values d⟩ : SortedResult T)]).length = limit := by
        simp only [List.length_append, List.length_cons, List.length_nil]
        omega
      refine ⟨[], ?_, ?_, ?_⟩
      · right
        constructor
        · rw [i1, e]
        · rw [e] at i3
          rw [e]
          exact i3
      · rw [List.append_nil, colResults_append]
        refine i2.trans ?_
        rw [hdrop.2]
      · intro x _ y hy
        simp at hy
    · rw [heapSortStep_eq_fill asc limit values items d hfill h2]
      refine ⟨[], ?_, ?_, ?_⟩
      · left
        refine ⟨?_, ?_, rfl⟩
        · rw [colResults_append, hdrop.2]
        · simp only [List.length_append, List.length_cons, List.length_nil]
          omega
      · rw [List.append_nil, colResults_append, hdrop.2]
      · intro x _ y hy
        simp at hy
  · have hlen : items.length = limit := by
      rcases hphase with ⟨_, hl, _⟩ | ⟨hl, _⟩
      · omega
      · exact hl
    have hheap : IsHeap (heapLess asc) items limit := by
      rcases hphase with ⟨_, hl, _⟩ | ⟨_, hh⟩
      · omega
      · exact hh
    have hheap' : IsHeap (heapLess asc) items items.length := by
      rw [hlen]; exact hheap
    have hpos : 0 < items.length := by omega
    have hrootmem : items.getD 0 default ∈ items := getD_zero_mem items hpos
    have hrootmin : ∀ x ∈ items, heapLess asc x (items.getD 0 default) = false :=
      fun x hx => heap_root_min (heapLess asc) (heapLess_asymm asc)
        (heapLess_negtrans asc) items hheap' x hx
    obtain ⟨t0, tail, hitems⟩ : ∃ t0 tail, items = t0 :: tail := by
      cases items with
      | nil => simp at hpos
      | cons a b => exact ⟨a, b, rfl⟩
    by_cases hbet : heapLess asc (items.getD 0 default)
        (⟨d, getValue values d⟩ : SortedResult T) = true
    · rw [heapSortStep_eq_replace asc limit values items d hfill hbet, heapFix_zero]
      have hsetlen : (items.set 0 (⟨d, getValue values d⟩ : SortedResult T)).length
          = items.length := by simp
      have hpre : ∀ p c,
          c < (items.set 0 (⟨d, getValue values d⟩ : SortedResult T)).length →
          (c = 2 * p + 1 ∨ c = 2 * p + 2) → 0 < p →
          heapLess asc
            ((items.set 0 (⟨d, getValue values d⟩ : SortedResult T)).getD c default)
            ((items.set 0 (⟨d, getValue values d⟩ : SortedResult T)).getD p default)
            = false := by
        intro p c hc hrel hp
        rw [getD_set_ne _ _ _ _ (by rcases hrel with h | h <;> omega),
          getD_set_ne _ _ _ _ (by omega)]
        rw [hsetlen] at hc
        exact hheap' p c hc hrel
      obtain ⟨d1, d2, d3, d4, d5, d6⟩ := down_spec (heapLess asc)
        (heapLess_asymm asc) (heapLess_negtrans asc)
        (items.set 0 (⟨d, getValue values d⟩ : SortedResult T)).length
        (items.set 0 (⟨d, getValue values d⟩ : SortedResult T)).length
        (items.set 0 (⟨d, getValue values d⟩ : SortedResult T)) 0
        (le_refl _) (le_refl _) hpre
      have hsetcons : items.set 0 (⟨d, getValue values d⟩ : SortedResult T)
          = (⟨d, getValue values d⟩ : SortedResult T) :: tail := by
        rw [hitems]
        rfl
      have hmem' : ∀ x, x ∈ (down (heapLess asc)
          (items.set 0 (⟨d, getValue values d⟩ : SortedResult T)) 0
          (items.set 0 (⟨d, getValue values d⟩ : SortedResult T)).length).1 →
          x = (⟨d, getValue values d⟩ : SortedResult T) ∨ x ∈ tail := by
        intro x hx
        have := d2.mem_iff.mp hx
        rw [hsetcons] at this
        simpa using this
      refine ⟨items.getD 0 default :: dropped, ?_, ?_, ?_⟩
      · right
        constructor
        · rw [d1, hsetlen, hlen]
        · intro p c hc hrel
          exact d6 p c (by rw [hsetlen, hlen]; exact hc) hrel (Nat.zero_le p)
      · refine (List.Perm.append_right (items.getD 0 default :: dropped) d2).trans ?_
        rw [hsetcons, colResults_append]
        have hstep1 : (((⟨d, getValue values d⟩ : SortedResult T) :: tail)
            ++ items.getD 0 default :: dropped).Perm
            ((⟨d, getValue values d⟩ : SortedResult T) ::
              (items.getD 0 default :: tail) ++ dropped) := by
          refine List.Perm.cons _ ?_
          exact List.perm_middle
        refine hstep1.trans ?_
        have hstep2 : ((items.getD 0 default :: tail) ++ dropped).Perm
            (colResults values processed) := by
          rw [hitems] at hperm ⊢
          simpa using hperm
        refine (hstep2.cons _).trans ?_
        exact (List.perm_append_singleton _ _).symm
      · intro x hx y hy
        rcases hmem' x hx with hxe | hxt
        · subst hxe
          rcases List.mem_cons.mp hy with hye | hyd
          · rw [hye]
            exact heapLess_asymm asc _ _ hbet
          · have h1 : heapLess asc (items.getD 0 default) y = false :=
              hdom _ hrootmem y hyd
            by_cases hx2 : heapLess asc (⟨d, getValue values d⟩ : SortedResult T) y = true
            · exfalso
              have h3 := less_trans (heapLess asc) (heapLess_asymm asc)
                (heapLess_negtrans asc) _ _ _ hbet hx2
              rw [h1] at h3
              simp at h3
            · simpa using hx2
        · have hxi : x ∈ items := by
            rw [hitems]
            simp [hxt]
          rcases List.mem_cons.mp hy with hye | hyd
          · rw [hye]
            exact hrootmin x hxi
          · exact hdom x hxi y hyd
    · have hbet' : heapLess asc (items.getD 0 default)
          (⟨d, getValue values d⟩ : SortedResult T) = false := by
        simpa using hbet
      rw [heapSortStep_eq_skip asc limit values items d hfill hbet']
      refine ⟨(⟨d, getValue values d⟩ : SortedResult T) :: dropped, ?_, ?_, ?_⟩
      · right
        exact ⟨hlen, hheap⟩
      · refine List.perm_middle.trans ?_
        rw [colResults_append]
        exact (hperm.cons _).trans (List.perm_append_singleton _ _).symm
      · intro x hx y hy
        rcases List.mem_cons.mp hy with hye | hyd
        · rw [hye]
          exact heapLess_negtrans asc _ _ _ (hrootmin x hx) hbet'
        · exact hdom x hx y hyd

theorem heapSortFold_inv {T : Type} [LinearOrder T] [Inhabited T]
    (asc : Bool) (limit : Nat) (values : List T) (hlim : 0 < limit) :
    ∀ (ds processed : List Nat) (items dropped : List (SortedResult T)),
    SelInv asc limit values processed items dropped →
    ∃ dropped', SelInv asc limit values (processed ++ ds)
      (ds.foldl (heapSortStep asc limit values) items) dropped' := by
  intro ds
  induction ds with
  | nil =>
    intro processed items dropped hinv
    exact ⟨dropped, by simpa using hinv⟩
  | cons d ds ihd =>
    intro processed items dropped hinv
    obtain ⟨dropped1, hinv1⟩ :=
      heapSortStep_inv asc limit values hlim processed items dropped d hinv
    obtain ⟨dropped2, hinv2⟩ := ihd (processed ++ [d])
      (heapSortStep asc limit values items d) dropped1 hinv1
    refine ⟨dropped2, ?_⟩
    rw [List.append_assoc] at hinv2
    simpa using hinv2

theorem heapSort_spec {T : Type} [LinearOrder T] [Inhabited T]
    (values : List T) (docIDs : List Nat) (asc : Bool) (limit : Nat)
    (hlim : 0 < limit) (hcount : limit ≤ docIDs.length) :
    ∃ dropped : List (SortedResult T),
      ((heapSort values docIDs asc limit) ++ dropped).Perm (colResults values docIDs) ∧
      (heapSort values docIDs asc limit).length = limit ∧
      List.Pairwise (fun a b => heapLess asc a b = false)
        (heapSort values docIDs asc limit) ∧
      (∀ x ∈ heapSort values docIDs asc limit, ∀ y ∈ dropped,
        heapLess asc x y = false) := by
  have base : SelInv asc limit values [] ([] : List (SortedResult T)) [] := by
    refine ⟨Or.inl ⟨rfl, by simpa using hlim, rfl⟩, ?_, ?_⟩
    · simp [colResults]
    · intro x hx
      simp at hx
  obtain ⟨dropped, hphase, hperm, hdom⟩ := by
    have h := heapSortFold_inv asc limit values hlim docIDs [] [] [] base
    simpa using h
  have hlen : (docIDs.foldl (heapSortStep asc limit values) []).length = limit := by
    rcases hphase with ⟨he, hl, _⟩ | ⟨hl, _⟩
    · exfalso
      rw [he] at hl
      simp only [colResults, List.length_map] at hl
      omega
    · exact hl
  have hheap : IsHeap (heapLess asc) (docIDs.foldl (heapSortStep asc limit values) [])
      limit := by
    rcases hphase with ⟨he, hl, _⟩ | ⟨_, hh⟩
    · exfalso
      rw [he] at hl
      simp only [colResults, List.length_map] at hl
      omega
    · exact hh
  have hguard : ¬ ((docIDs.foldl (heapSortStep asc limit values) []).length < limit ∧
      0 < (docIDs.foldl (heapSortStep asc limit values) []).length) := by
    rw [hlen]
    omega
  have hstep : heapSort values docIDs asc limit
      = (popLoop (heapLess asc)
          (docIDs.foldl (heapSortStep asc limit values) []).length
          (docIDs.foldl (heapSortStep asc limit values) [])).reverse := by
    simp only [heapSort]
    rw [if_neg hguard]
  obtain ⟨e1, e2⟩ := popLoop_spec (heapLess asc) (heapLess_asymm asc)
    (heapLess_negtrans asc) (docIDs.foldl (heapSortStep asc limit values) []).length
    (docIDs.foldl (heapSortStep asc limit values) []) rfl (by rw [hlen]; exact hheap)
  refine ⟨dropped, ?_, ?_, ?_, ?_⟩
  · rw [hstep]
    refine (List.Perm.append_right dropped
      ((List.reverse_perm _).trans e1)).trans hperm
  · rw [hstep]
    rw [List.length_reverse, e1.length_eq, hlen]
  · rw [hstep]
    rw [List.pairwise_reverse]
    exact e2
  · intro x hx y hy
    rw [hstep] at hx
    have hx1 : x ∈ docIDs.foldl (heapSortStep asc limit values) [] :=
      e1.mem_iff.mp (by simpa using hx)
    exact hdom x hx1 y hy

theorem sorted_prefix_unique {α : Type} (r : α → α → Prop) [DecidableRel r]
    [IsTotal α r] [IsTrans α r] [IsAntisymm α r]
    (out rest full : List α)
    (hperm : (out ++ rest).Perm full)
    (hsout : List.Pairwise r out)
    (hsfull : List.Pairwise r full)
    (hdom : ∀ x ∈ out, ∀ y ∈ rest, r x y) :
    out = full.take out.length := by
  have hp : (out ++ List.insertionSort r rest).Perm full :=
    ((List.perm_insertionSort r rest).append_left out).trans hperm
  have hs1 : List.Sorted r (out ++ List.insertionSort r rest) :=
    List.pairwise_append.mpr ⟨hsout, List.sorted_insertionSort r rest,
      fun a ha b hb => hdom a ha b ((List.perm_insertionSort r rest).mem_iff.mp hb)⟩
  have hs2 : List.Sorted r full := hsfull
  have key : out ++ List.insertionSort r rest = full :=
    List.eq_of_perm_of_sorted hp hs1 hs2
  rw [← key, List.take_left]

/-- Claim C8 (amended): whenever the heap branch of `sortLocked` is taken
(`limit > 0 && limit < len(docIDs)/4`), the heap-based partial sort
(max-heap for ascending, min-heap for descending) returns rows carrying
exactly the same value sequence as the first `limit` rows of the full
sort in the requested direction; ties between equal values may order
document IDs differently from the full sort (see the counterexample). -/
theorem heapSort_values_eq_fullSort {T : Type} [LinearOrder T] [Inhabited T]
    (values : List T) (docIDs : List Nat) (asc : Bool) (limit : Int)
    (h1 : 0 < limit) (h2 : limit < (docIDs.length : Int) / 4) :
    (sortLocked values docIDs asc limit).map SortedResult.value =
      ((fullSortResults values docIDs asc).take limit.toNat).map SortedResult.value := by
  have hlen8 : 8 ≤ docIDs.length := by omega
  have hlimnat : 0 < limit.toNat := by omega
  have hcount : limit.toNat ≤ docIDs.length := by omega
  have hne : docIDs.isEmpty = false := by
    cases docIDs with
    | nil => simp at hlen8
    | cons a b => rfl
  have hbranch : sortLocked values docIDs asc limit
      = heapSort values docIDs asc limit.toNat := by
    unfold sortLocked
    rw [hne]
    simp only [Bool.false_eq_true, if_false]
    rw [if_pos ⟨h1, h2⟩]
  obtain ⟨dropped, hperm, hlen, hpw, hdom⟩ :=
    heapSort_spec values docIDs asc limit.toNat hlimnat hcount
  rw [hbranch, List.map_take]
  cases asc with
  | true =>
    have hfull : fullSortResults values docIDs true
        = List.insertionSort (fun a b : SortedResult T => a.value ≤ b.value)
          (colResults values docIDs) := by
      simp [fullSortResults, colResults]
    haveI : IsTotal (SortedResult T) (fun a b => a.value ≤ b.value) :=
      ⟨fun a b => le_total a.value b.value⟩
    haveI : IsTrans (SortedResult T) (fun a b => a.value ≤ b.value) :=
      ⟨fun a b c hab hbc => le_trans hab hbc⟩
    have hfullsorted : List.Pairwise (fun a b : SortedResult T => a.value ≤ b.value)
        (fullSortResults values docIDs true) := by
      rw [hfull]
      exact List.sorted_insertionSort _ _
    have hfullperm : (fullSortResults values docIDs true).Perm
        (colResults values docIDs) := by
      rw [hfull]
      exact List.perm_insertionSort _ _
    have happly : (heapSort values docIDs true limit.toNat).map SortedResult.value
        = ((fullSortResults values docIDs true).map SortedResult.value).take
          ((heapSort values docIDs true limit.toNat).map SortedResult.value).length := by
      apply sorted_prefix_unique (fun x y : T => x ≤ y) _
        (dropped.map SortedResult.value) _
      · rw [← List.map_append]
        exact (hperm.map SortedResult.value).trans
          (hfullperm.map SortedResult.value).symm
      · rw [List.pairwise_map]
        refine hpw.imp ?_
        intro a b hab
        simp [heapLess] at hab
        exact hab
      · rw [List.pairwise_map]
        exact hfullsorted.imp (fun hab => hab)
      · intro x hx y hy
        rw [List.mem_map] at hx hy
        obtain ⟨a, ha, rfl⟩ := hx
        obtain ⟨b, hb, rfl⟩ := hy
        have h := hdom a ha b hb
        simp [heapLess] at h
        exact h
    rw [happly]
    congr 1
    rw [List.length_map, hlen]
  | false =>
    have hfull : fullSortResults values docIDs false
        = List.insertionSort (fun a b : SortedResult T => b.value ≤ a.value)
          (colResults values docIDs) := by
      simp [fullSortResults, colResults]
    haveI : IsTotal (SortedResult T) (fun a b => b.value ≤ a.value) :=
      ⟨fun a b => le_total b.value a.value⟩
    haveI : IsTrans (SortedResult T) (fun a b => b.value ≤ a.value) :=
      ⟨fun a b c hab hbc => le_trans hbc hab⟩
    haveI : IsTotal T (fun x y => y ≤ x) := ⟨fun a b => le_total b a⟩
    haveI : IsTrans T (fun x y => y ≤ x) := ⟨fun a b c hab hbc => le_trans hbc hab⟩
    haveI : IsAntisymm T (fun x y => y ≤ x) := ⟨fun a b hab hba => le_antisymm hba hab⟩
    have hfullsorted : List.Pairwise (fun a b : SortedResult T => b.value ≤ a.value)
        (fullSortResults values docIDs false) := by
      rw [hfull]
      exact List.sorted_insertionSort _ _
    have hfullperm : (fullSortResults values docIDs false).Perm
        (colResults values docIDs) := by
      rw [hfull]
      exact List.perm_insertionSort _ _
    have happly : (heapSort values docIDs false limit.toNat).map SortedResult.value
        = ((fullSortResults values docIDs false).map SortedResult.value).take
          ((heapSort values docIDs false limit.toNat).map SortedResult.value).length := by
      apply sorted_prefix_unique (fun x y : T => y ≤ x) _
        (dropped.map SortedResult.value) _
      · rw [← List.map_append]
        exact (hperm.map SortedResult.value).trans
          (hfullperm.map SortedResult.value).symm
      · rw [List.pairwise_map]
        refine hpw.imp ?_
        intro a b hab
        simp [heapLess] at hab
        exact hab
      · rw [List.pairwise_map]
        exact hfullsorted.imp (fun hab => hab)
      · intro x hx y hy
        rw [List.mem_map] at hx hy
        obtain ⟨a, ha, rfl⟩ := hx
        obtain ⟨b, hb, rfl⟩ := hy
        have h := hdom a ha b hb
        simp [heapLess] at h
        exact h
    rw [happly]
    congr 1
    rw [List.length_map, hlen]

/-- Claim C8 (counterexample): on twelve documents with tied values and
`limit = 2`, the heap partial sort returns the two smallest values with
the tied document IDs in a different order than the first two rows of
the full sort, so the sorts are not equal row-for-row. -/
theorem heapSort_tie_counterexample :
    sortLocked exVals exIDs true 2 ≠
      (fullSortResults exVals exIDs true).take ((2 : Int)).toNat := by
  decide

/-- Witness for the amended C8 on the counterexample data: the value
sequences do agree. -/
theorem heapSort_values_eq_fullSort_witness :
    (0 : Int) < 2 ∧ (2 : Int) < ((exIDs.length : Int)) / 4 ∧
    (sortLocked exVals exIDs true 2).map SortedResult.value =
      ((fullSortResults exVals exIDs true).take ((2 : Int)).toNat).map
        SortedResult.value :=
  ⟨by decide, by decide,
    heapSort_values_eq_fullSort exVals exIDs true 2 (by decide) (by decide)⟩

end RoaringSearch
